import Mathlib

/-!
# Verification of the GoCowrie log viewer core

A shallow embedding of the GoCowrie repository (`main.go`), covering:
decoded JSON events, the timestamp normalizer (`parseTimestamp`), the
aggregation pipeline (grouping by `src_ip`, the `sort.Slice` call and the
derived per-group facts), the TTY replay command builder
(`extractTTYLogCommand` and its caller), the detail-row rendering and the
two-screen navigation state machine built from the tview callbacks.

Go's `sort.Slice` is embedded by its actual algorithm (the pattern-defeating
quicksort of `sort/zsortfunc.go`, reached through `lessSwap`): the data is a
total function `Nat → α` together with a boolean comparator, exactly the
`Less`/`Swap` interface the Go sort operates on.
-/

namespace GoCowrie

/-!
A decoded JSON value as stored in Go's `map[string]interface{}` after
`json.Unmarshal`.  JSON numbers decode to `float64` in Go; no claim observes
a numeric value, so a number is carried as its source literal (`jnum`).
Array items and object fields are their own mutual types so that every
recursion over values is structural (kernel-computable).
-/
mutual
inductive JVal where
  | jnull : JVal
  | jbool : Bool → JVal
  | jnum : String → JVal
  | jstr : String → JVal
  | jarr : JItems → JVal
  | jobj : JFields → JVal
deriving Repr, DecidableEq

inductive JItems where
  | inil : JItems
  | icons : JVal → JItems → JItems
deriving Repr, DecidableEq

inductive JFields where
  | fnil : JFields
  | fcons : String → JVal → JFields → JFields
deriving Repr, DecidableEq
end

/-- A decoded event (`CowrieEvent`, a `map[string]interface{}`): association
list from field name to value (keys unique, from `JFields.insert`). -/
abbrev Ev := List (String × JVal)

/-- The top-level object's fields as an association list. -/
def JFields.toList : JFields → Ev
  | .fnil => []
  | .fcons k v rest => (k, v) :: rest.toList

/-- Map lookup `evt[k]`: `none` models Go's missing-key `nil` interface. -/
def lookupJ (e : Ev) (k : String) : Option JVal :=
  match e with
  | [] => none
  | (k', v) :: rest => if k' = k then some v else lookupJ rest k

/-- Go type assertion `v.(string)` with the `, ok` form: the string payload
when the interface holds a string, otherwise the zero value `""`.
`asString none` is an assertion on a `nil` interface, also `""`. -/
def asString : Option JVal → String
  | some (.jstr s) => s
  | _ => ""

/-- Insert a rendered `key:value` pair into a key-sorted list (used to model
`fmt`'s sorted printing of map keys). -/
def insertRendered (p : String × String) : List (String × String) → List (String × String)
  | [] => [p]
  | q :: rest => if p.1 ≤ q.1 then p :: q :: rest else q :: insertRendered p rest

/-- Sort rendered `key:value` pairs by key, as `fmt` sorts map keys. -/
def sortRendered : List (String × String) → List (String × String)
  | [] => []
  | p :: rest => insertRendered p (sortRendered rest)

/-!
Go's `fmt.Sprint` (`%v`) of a decoded JSON value: strings print verbatim,
booleans as `true`/`false`, slices as `[e1 e2]`, maps as `map[k1:v1 k2:v2]`
with keys sorted, and a `nil` interface as `<nil>`.  A number prints as its
carried literal (Go reformats the `float64`; no claim observes this).
-/
mutual
def goSprint : JVal → String
  | .jnull => "<nil>"
  | .jbool true => "true"
  | .jbool false => "false"
  | .jnum s => s
  | .jstr s => s
  | .jarr xs => "[" ++ " ".intercalate (goSprintItems xs) ++ "]"
  | .jobj fs =>
    "map[" ++
      " ".intercalate ((sortRendered (goSprintPairs fs)).map fun p => p.1 ++ ":" ++ p.2) ++ "]"

def goSprintItems : JItems → List String
  | .inil => []
  | .icons v rest => goSprint v :: goSprintItems rest

def goSprintPairs : JFields → List (String × String)
  | .fnil => []
  | .fcons k v rest => (k, goSprint v) :: goSprintPairs rest
end

/-- `fmt.Sprint(evt[k])`: renders the looked-up field, `"<nil>"` when the key
is absent (a `nil` interface). -/
def sprintField (e : Ev) (k : String) : String :=
  match lookupJ e k with
  | none => "<nil>"
  | some v => goSprint v

/-- The fixed prefix recognized by the replay builder's caller. -/
def ttyPfx : List Char := "Closing TTY Log: ".toList

/-- The delimiter whose last occurrence is discarded. -/
def afterDelim : List Char := " after ".toList

/-- `strings.TrimPrefix`: drop `p` from the front of `s` when present,
otherwise return `s` unchanged. -/
def trimPfxL (p s : List Char) : List Char :=
  if p.isPrefixOf s then s.drop p.length else s

/-- Does `needle` occur in `hay` at position `i`? -/
def occursAtB (needle hay : List Char) (i : Nat) : Bool :=
  needle.isPrefixOf (hay.drop i)

/-- `strings.LastIndex(hay, needle)`: position of the last occurrence, as an
option instead of Go's `-1`. -/
def lastIndexL (hay needle : List Char) : Option Nat :=
  ((List.range (hay.length + 1)).filter (occursAtB needle hay)).getLast?

/-- `extractTTYLogCommand` from `main.go`: strip the `"Closing TTY Log: "`
prefix, cut everything from the last `" after "` on (if any), and substitute
into the fixed playlog template. -/
def extractTTYLogCommand (message : String) : String :=
  let cleaned := trimPfxL ttyPfx message.toList
  let cleaned :=
    match lastIndexL cleaned afterDelim with
    | some idx => cleaned.take idx
    | none => cleaned
  String.mk ("/cowrie/cowrie-git/bin/playlog /cowrie/cowrie-git/".toList ++ cleaned)

/-- The detail screen's confirm handler: a command is produced exactly when
the row's message starts with the fixed prefix (`strings.HasPrefix` guard in
`main.go`); otherwise "not applicable" (`none`), no command and no modal. -/
def replayCommandOf (message : String) : Option String :=
  if ttyPfx.isPrefixOf message.toList then some (extractTTYLogCommand message)
  else none

/-- The combined `USERNAME/PWD` detail column (`showDetail` in `main.go`):
empty unless one of the two extracted strings is non-empty, otherwise
`username ++ "/" ++ password`. -/
def userinfoOf (e : Ev) : String :=
  let username := asString (lookupJ e "username")
  let password := asString (lookupJ e "password")
  if username ≠ "" ∨ password ≠ "" then username ++ "/" ++ password else ""

/-- The grouping key (`main.go` lines 78-82): the `src_ip` field as a string
(type assertion), substituting `"UNKNOWN_IP"` when that comes out empty. -/
def addrKey (e : Ev) : String :=
  let srcIP := asString (lookupJ e "src_ip")
  if srcIP = "" then "UNKNOWN_IP" else srcIP

/-! ## Timestamp normalizer

`parseTimestamp` calls `time.Parse(time.RFC3339Nano, ts)`.  For the RFC3339
layouts Go's `Parse` uses the `parseRFC3339` fast path, embedded here; an
instant is total nanoseconds since the zero `time.Time`
(0001-01-01T00:00:00 UTC), so the zero instant is `0`.  (On fast-path failure
Go retries with the general layout parser, which for this layout accepts the
same strings up to a comma as fractional separator; no claim observes the
difference.) -/

/-- Is `c` an ASCII decimal digit? -/
def isDigitC (c : Char) : Bool := '0' ≤ c ∧ c ≤ '9'

/-- Value of a fixed-width decimal field, checked to lie in `[lo, hi]`
(Go's `parseUint`). -/
def parseUintR (cs : List Char) (lo hi : Nat) : Option Nat :=
  if cs.all isDigitC then
    let n := cs.foldl (fun acc c => acc * 10 + (c.toNat - '0'.toNat)) 0
    if lo ≤ n ∧ n ≤ hi then some n else none
  else none

/-- Is `y` a leap year (proleptic Gregorian)? -/
def isLeapYear (y : Nat) : Bool := y % 4 = 0 ∧ (y % 100 ≠ 0 ∨ y % 400 = 0)

/-- Days from 0000-01-01 to the start of year `y` (years 0..9999). -/
def daysBeforeYear (y : Nat) : Nat :=
  365 * y + ((y + 3) / 4 + (y + 399) / 400 - (y + 99) / 100)

/-- Days before the first of month `m` (1-12) in a non-leap year. -/
def daysBeforeMonth (m : Nat) : Nat :=
  [0, 0, 31, 59, 90, 120, 151, 181, 212, 243, 273, 304, 334].getD m 0

/-- Go's `daysIn(month, year)`. -/
def daysInMonth (m y : Nat) : Nat :=
  if m = 2 then (if isLeapYear y then 29 else 28)
  else [0, 31, 28, 31, 30, 31, 30, 31, 31, 30, 31, 30, 31].getD m 31

/-- Days from 0000-01-01 to the civil date `y-m-d`. -/
def civilDays (y m d : Nat) : Nat :=
  daysBeforeYear y + daysBeforeMonth m +
    (if 2 < m ∧ isLeapYear y then 1 else 0) + (d - 1)

/-- Nanoseconds of fractional-second digits: Go's `parseNanoseconds` keeps at
most nine digits and scales them to nanoseconds. -/
def fracNanos (digits : List Char) : Nat :=
  let kept := digits.take 9
  let v := kept.foldl (fun acc c => acc * 10 + (c.toNat - '0'.toNat)) 0
  v * 10 ^ (9 - kept.length)

/-- Nanoseconds since 0001-01-01T00:00:00 UTC of the given civil fields and
zone offset (seconds east of UTC), as `Date(...)` plus `addSec` compute. -/
def instantOf (y m d hh mm ss nsec : Nat) (offsetSec : Int) : Int :=
  ((civilDays y m d : Int) - 366) * 86400000000000 +
    ((hh * 3600 + mm * 60 + ss : Nat) : Int) * 1000000000 + (nsec : Int) -
    offsetSec * 1000000000

/-- Go's `parseRFC3339` (the `time.Parse` fast path for RFC3339 layouts):
`yyyy-mm-ddThh:mm:ss`, optional `.` plus digits, then `Z` or `±hh:mm`. -/
def rfc3339Parse (s : String) : Option Int :=
  let cs := s.toList
  if cs.length < 19 then none
  else
    let field (i len : Nat) : List Char := (cs.drop i).take len
    match parseUintR (field 0 4) 0 9999 with
    | none => none
    | some year =>
    match parseUintR (field 5 2) 1 12 with
    | none => none
    | some month =>
    match parseUintR (field 8 2) 1 (daysInMonth month year) with
    | none => none
    | some day =>
    match parseUintR (field 11 2) 0 23 with
    | none => none
    | some hour =>
    match parseUintR (field 14 2) 0 59 with
    | none => none
    | some minute =>
    match parseUintR (field 17 2) 0 59 with
    | none => none
    | some sec =>
    if cs.getD 4 ' ' = '-' ∧ cs.getD 7 ' ' = '-' ∧ cs.getD 10 ' ' = 'T' ∧
        cs.getD 13 ' ' = ':' ∧ cs.getD 16 ' ' = ':' then
      let rest := cs.drop 19
      let hasFrac := 2 ≤ rest.length ∧ rest.getD 0 ' ' = '.' ∧ isDigitC (rest.getD 1 ' ')
      let fracDigits := if hasFrac then (rest.drop 1).takeWhile isDigitC else []
      let nsec := if hasFrac then fracNanos fracDigits else 0
      let rest := if hasFrac then rest.drop (1 + fracDigits.length) else rest
      if rest = ['Z'] then
        some (instantOf year month day hour minute sec nsec 0)
      else if rest.length = 6 ∧ (rest.getD 0 ' ' = '+' ∨ rest.getD 0 ' ' = '-') ∧
          rest.getD 3 ' ' = ':' then
        match parseUintR ((rest.drop 1).take 2) 0 23,
              parseUintR ((rest.drop 4).take 2) 0 59 with
        | some zh, some zm =>
          let off : Int := (if rest.getD 0 ' ' = '-' then -1 else 1) * (zh * 3600 + zm * 60 : Nat)
          some (instantOf year month day hour minute sec nsec off)
        | _, _ => none
      else none
    else none

/-- `parseTimestamp` from `main.go`: the parsed instant, or the zero instant
(`time.Time{}`, here `0`) on any parse failure.  Never an error. -/
def parseTimestamp (ts : String) : Int :=
  match rfc3339Parse ts with
  | some t => t
  | none => 0

/-! ## Go's `sort.Slice`

`sort.Slice(x, less)` runs `pdqsort_func(lessSwap{less, swap}, 0, n,
bits.Len(uint(n)))` from `sort/zsortfunc.go`.  The slice reached through
`lessSwap` is modelled as a `List α` of fixed length; `data.Swap(i, j)` is
`lswap`, `data.Less(i, j)` is `less (getE l i) (getE l j)`.  Loops become
fuel recursion; the fuel bounds are generous and never reached (each loop
step shrinks its measure). -/

variable {α : Type} [Inhabited α]

/-- Read the slice at `i` (always in range when the sort runs). -/
def getE (l : List α) (i : Nat) : α := l.getD i default

/-- `data.Swap(i, j)` on the list view of the slice. -/
def lswap (l : List α) (i j : Nat) : List α :=
  (l.set i (getE l j)).set j (getE l i)

/-- Inner loop of `insertionSort_func`: sift position `j` down while it
inverts with its left neighbour, stopping at `a`. -/
def insInner (less : α → α → Bool) (a : Nat) : Nat → List α → List α
  | 0, l => l
  | j + 1, l =>
    if a ≤ j ∧ less (getE l (j + 1)) (getE l j) then insInner less a j (lswap l j (j + 1))
    else l

/-- Outer loop of `insertionSort_func`: `n` iterations starting at `i`. -/
def insOuter (less : α → α → Bool) (a : Nat) : Nat → Nat → List α → List α
  | 0, _, l => l
  | n + 1, i, l => insOuter less a n (i + 1) (insInner less a i l)

/-- Go's `insertionSort_func(data, a, b)`. -/
def insertionSortF (less : α → α → Bool) (l : List α) (a b : Nat) : List α :=
  insOuter less a (b - (a + 1)) (a + 1) l

/-- Go's `siftDown_func(data, lo, hi, first)` (`lo` is the root), as fuel
recursion on the descending root. -/
def siftDownF (less : α → α → Bool) (first hi : Nat) : Nat → Nat → List α → List α
  | 0, _, l => l
  | fuel + 1, root, l =>
    let child0 := 2 * root + 1
    if child0 < hi then
      let child :=
        if child0 + 1 < hi ∧ less (getE l (first + child0)) (getE l (first + child0 + 1)) then
          child0 + 1
        else child0
      if less (getE l (first + root)) (getE l (first + child)) then
        siftDownF less first hi fuel child (lswap l (first + root) (first + child))
      else l
    else l

/-- The child index `siftDown_func` compares against: the larger of the two
children of `root` (named for the specification; definitionally the `child`
of the source's loop body). -/
def sdChild (less : α → α → Bool) (first hi root : Nat) (l : List α) : Nat :=
  if 2 * root + 1 + 1 < hi ∧
      less (getE l (first + (2 * root + 1))) (getE l (first + (2 * root + 1) + 1)) then
    2 * root + 1 + 1
  else 2 * root + 1

/-- Heap construction loop of `heapSort_func`: siftDown at roots
`fuel-1, …, 0`. -/
def heapifyLoop (less : α → α → Bool) (first hi : Nat) : Nat → List α → List α
  | 0, l => l
  | i + 1, l => heapifyLoop less first hi i (siftDownF less first hi hi i l)

/-- Pop loop of `heapSort_func`: swap the max to the end and restore the
heap, for `i = fuel-1, …, 0`. -/
def popLoop (less : α → α → Bool) (first : Nat) : Nat → List α → List α
  | 0, l => l
  | i + 1, l => popLoop less first i (siftDownF less first i i 0 (lswap l first (first + i)))

/-- Go's `heapSort_func(data, a, b)`. -/
def heapSortF (less : α → α → Bool) (l : List α) (a b : Nat) : List α :=
  let first := a
  let hi := b - a
  popLoop less first hi (heapifyLoop less first hi ((hi - 1) / 2 + 1) l)

/-- Loop of `reverseRange_func`. -/
def revGo : Nat → Nat → Nat → List α → List α
  | 0, _, _, l => l
  | fuel + 1, i, j, l => if i < j then revGo fuel (i + 1) (j - 1) (lswap l i j) else l

/-- Go's `reverseRange_func(data, a, b)`. -/
def reverseRangeF (l : List α) (a b : Nat) : List α :=
  revGo b a (b - 1) l

/-- One step of Go's `xorshift.Next` on a `uint64` state. -/
def xorshiftNext (r : Nat) : Nat :=
  let r := (r ^^^ (r <<< 13)) % 2 ^ 64
  let r := r ^^^ (r >>> 7)
  (r ^^^ (r <<< 17)) % 2 ^ 64

/-- Fuel-indexed bit counter (structural, kernel-computable). -/
def bitsLenAux : Nat → Nat → Nat
  | 0, _ => 0
  | fuel + 1, n => if n = 0 then 0 else bitsLenAux fuel (n / 2) + 1

/-- `bits.Len(uint(n))`: bits needed to represent `n`. -/
def bitsLen (n : Nat) : Nat := bitsLenAux n n

/-- Go's `nextPowerOfTwo(length)`. -/
def nextPowerOfTwo (length : Nat) : Nat := 2 ^ bitsLen length

/-- The `other` index of one `breakPatterns_func` swap: reduce the random
draw `r` modulo the power of two, then fold overflow back into the window. -/
def bpPick (length modulus r : Nat) : Nat :=
  if length ≤ r % modulus then r % modulus - length else r % modulus

/-- Go's `breakPatterns_func(data, a, b)`: three pseudo-random swaps around
the middle, seeded with the length. -/
def breakPatternsF (l : List α) (a b : Nat) : List α :=
  let length := b - a
  if 8 ≤ length then
    let modulus := nextPowerOfTwo length
    let idx := a + length / 4 * 2 - 1
    let r1 := xorshiftNext length
    let l := lswap l (idx - 1) (a + bpPick length modulus r1)
    let r2 := xorshiftNext r1
    let l := lswap l idx (a + bpPick length modulus r2)
    let r3 := xorshiftNext r2
    lswap l (idx + 1) (a + bpPick length modulus r3)
  else l

/-- The `sortedHint` returned by `choosePivot_func`. -/
inductive SortHint where
  | increasing : SortHint
  | decreasing : SortHint
  | unknown : SortHint
deriving DecidableEq, Repr

/-- Go's `order2_func(data, a, b, &swaps)`: the two indices ordered by their
elements, counting a swap. -/
def order2 (less : α → α → Bool) (l : List α) (a b swaps : Nat) : Nat × Nat × Nat :=
  if less (getE l b) (getE l a) then (b, a, swaps + 1) else (a, b, swaps)

/-- Go's `median_func(data, a, b, c, &swaps)`: index of the median element. -/
def medianOf (less : α → α → Bool) (l : List α) (a b c swaps : Nat) : Nat × Nat :=
  let p1 := order2 less l a b swaps
  let p2 := order2 less l p1.2.1 c p1.2.2
  let p3 := order2 less l p1.1 p2.1 p2.2.2
  (p3.2.1, p3.2.2)

/-- Go's `medianAdjacent_func(data, a, &swaps)`. -/
def medianAdjacent (less : α → α → Bool) (l : List α) (a swaps : Nat) : Nat × Nat :=
  medianOf less l (a - 1) a (a + 1) swaps

/-- The median selection of `choosePivot_func` in the `8 ≤ len` case:
ninther at `50 ≤ len`, plain median-of-three below; returns the chosen
index and the swap count. -/
def choosePivotQ (less : α → α → Bool) (l : List α) (a b : Nat) : Nat × Nat :=
  let len := b - a
  let i := a + len / 4 * 1
  let j := a + len / 4 * 2
  let k := a + len / 4 * 3
  if 50 ≤ len then
    let pi := medianAdjacent less l i 0
    let pj := medianAdjacent less l j pi.2
    let pk := medianAdjacent less l k pj.2
    medianOf less l pi.1 pj.1 pk.1 pk.2
  else
    medianOf less l i j k 0

/-- Go's `choosePivot_func(data, a, b)`: pivot index and sortedness hint. -/
def choosePivotF (less : α → α → Bool) (l : List α) (a b : Nat) : Nat × SortHint :=
  let len := b - a
  let j := a + len / 4 * 2
  if 8 ≤ len then
    let q := choosePivotQ less l a b
    if q.2 = 0 then (q.1, SortHint.increasing)
    else if q.2 = 12 then (q.1, SortHint.decreasing)
    else (q.1, SortHint.unknown)
  else (j, SortHint.increasing)

/-- The fused two-pointer loop of `partition_func`: each step advances `i`,
retreats `j`, or swaps an out-of-place pair; the Boolean records whether any
pair was swapped (Go's `alreadyPartitioned` is its negation). -/
def partLoopF (less : α → α → Bool) (a : Nat) : Nat → Nat → Nat → Bool → List α → Nat × Bool × List α
  | 0, _, j, sw, l => (j, sw, l)
  | fuel + 1, i, j, sw, l =>
    if i ≤ j ∧ less (getE l i) (getE l a) then partLoopF less a fuel (i + 1) j sw l
    else if i ≤ j ∧ ¬less (getE l j) (getE l a) then partLoopF less a fuel i (j - 1) sw l
    else if i ≤ j then partLoopF less a fuel (i + 1) (j - 1) true (lswap l i j)
    else (j, sw, l)

/-- Go's `partition_func(data, a, b, pivot)`: returns the new pivot
position, `alreadyPartitioned`, and the permuted data. -/
def partitionF (less : α → α → Bool) (l : List α) (a b pivot : Nat) :
    Nat × Bool × List α :=
  let l := lswap l a pivot
  let r := partLoopF less a (b + 1) (a + 1) (b - 1) false l
  (r.1, ¬r.2.1, lswap r.2.2 r.1 a)

/-- The fused two-pointer loop of `partitionEqual_func`. -/
def partEqLoopF (less : α → α → Bool) (a : Nat) : Nat → Nat → Nat → List α → Nat × List α
  | 0, i, _, l => (i, l)
  | fuel + 1, i, j, l =>
    if i ≤ j ∧ ¬less (getE l a) (getE l i) then partEqLoopF less a fuel (i + 1) j l
    else if i ≤ j ∧ less (getE l a) (getE l j) then partEqLoopF less a fuel i (j - 1) l
    else if i ≤ j then partEqLoopF less a fuel (i + 1) (j - 1) (lswap l i j)
    else (i, l)

/-- Go's `partitionEqual_func(data, a, b, pivot)`: move elements equal to
the pivot to the front, return the first position after them. -/
def partitionEqualF (less : α → α → Bool) (l : List α) (a b pivot : Nat) :
    Nat × List α :=
  let l := lswap l a pivot
  partEqLoopF less a (b + 1) (a + 1) (b - 1) l

/-- The scan of `partialInsertionSort_func`: advance `i` past adjacent
non-inversions. -/
def advanceI (less : α → α → Bool) (b : Nat) : Nat → Nat → List α → Nat
  | 0, i, _ => i
  | fuel + 1, i, l =>
    if i < b ∧ ¬less (getE l i) (getE l (i - 1)) then advanceI less b fuel (i + 1) l else i

/-- The leftward shift loop of `partialInsertionSort_func` (`j ≥ 1` bound as
in the Go source). -/
def shiftLeftL (less : α → α → Bool) : Nat → List α → List α
  | 0, l => l
  | j + 1, l =>
    if less (getE l (j + 1)) (getE l j) then shiftLeftL less j (lswap l j (j + 1)) else l

/-- The rightward shift loop of `partialInsertionSort_func`. -/
def shiftRightL (less : α → α → Bool) (b : Nat) : Nat → Nat → List α → List α
  | 0, _, l => l
  | fuel + 1, j, l =>
    if j < b ∧ less (getE l j) (getE l (j - 1)) then shiftRightL less b fuel (j + 1) (lswap l (j - 1) j)
    else l

/-- The `maxSteps` loop of `partialInsertionSort_func`; returns Go's Boolean
result together with the (possibly modified) data. -/
def tryInsLoop (less : α → α → Bool) (a b : Nat) : Nat → Nat → List α → Bool × List α
  | 0, _, l => (false, l)
  | step + 1, i, l =>
    let i := advanceI less b (b - i) i l
    if i = b then (true, l)
    else if b - a < 50 then (false, l)
    else
      let l := lswap l (i - 1) i
      let l := if 2 ≤ i - a then shiftLeftL less (i - 1) l else l
      let l := if 2 ≤ b - i then shiftRightL less b (b - (i + 1)) (i + 1) l else l
      tryInsLoop less a b step i l

/-- Go's `partialInsertionSort_func(data, a, b)` (`maxSteps = 5`,
`shortestShifting = 50`). -/
def pdqTryInsSort (less : α → α → Bool) (l : List α) (a b : Nat) : Bool × List α :=
  tryInsLoop less a b 5 (a + 1) l

/-- The swap-and-left-shift half of one `tryInsLoop` repair step (named for
the specification; `tryInsLoop_succ` proves it matches the loop body). -/
def tryInsL2 (less : α → α → Bool) (a i : Nat) (l : List α) : List α :=
  if 2 ≤ i - a then shiftLeftL less (i - 1) (lswap l (i - 1) i) else lswap l (i - 1) i

/-- One full repair step of `tryInsLoop` at inversion position `i`. -/
def tryInsStep (less : α → α → Bool) (a b i : Nat) (l : List α) : List α :=
  if 2 ≤ b - i then shiftRightL less b (b - (i + 1)) (i + 1) (tryInsL2 less a i l)
  else tryInsL2 less a i l

/-- One iteration of `pdqsort_func`'s loop, stage 1: break patterns when
the last partition was unbalanced. -/
def pdqL1 (less : α → α → Bool) (l : List α) (a b : Nat) (wasBalanced : Bool) : List α :=
  if ¬wasBalanced then breakPatternsF l a b else l

/-- Stage 2: reverse the window when the pivot hint says decreasing. -/
def pdqL2 (less : α → α → Bool) (l : List α) (a b : Nat) (wasBalanced : Bool) : List α :=
  if (choosePivotF less (pdqL1 less l a b wasBalanced) a b).2 = SortHint.decreasing then
    reverseRangeF (pdqL1 less l a b wasBalanced) a b
  else pdqL1 less l a b wasBalanced

/-- The pivot index after the optional reversal. -/
def pdqPivot (less : α → α → Bool) (l : List α) (a b : Nat) (wasBalanced : Bool) : Nat :=
  if (choosePivotF less (pdqL1 less l a b wasBalanced) a b).2 = SortHint.decreasing then
    (b - 1) - ((choosePivotF less (pdqL1 less l a b wasBalanced) a b).1 - a)
  else (choosePivotF less (pdqL1 less l a b wasBalanced) a b).1

/-- The hint after the optional reversal. -/
def pdqHint (less : α → α → Bool) (l : List α) (a b : Nat) (wasBalanced : Bool) : SortHint :=
  if (choosePivotF less (pdqL1 less l a b wasBalanced) a b).2 = SortHint.decreasing then
    SortHint.increasing
  else (choosePivotF less (pdqL1 less l a b wasBalanced) a b).2

/-- Stage 3: the optional `partialInsertionSort_func` attempt; the Boolean
is Go's early `return`. -/
def pdqTryP (less : α → α → Bool) (l : List α) (a b : Nat)
    (wasBalanced wasPartitioned : Bool) : Bool × List α :=
  if wasBalanced ∧ wasPartitioned ∧ pdqHint less l a b wasBalanced = SortHint.increasing then
    pdqTryInsSort less (pdqL2 less l a b wasBalanced) a b
  else (false, pdqL2 less l a b wasBalanced)

/-- Go's `pdqsort_func(data, a, b, limit)` (`maxInsertion = 12`).  The outer
`for` loop and the recursive call both consume one unit of fuel; each
shrinks `b - a`, so fuel `n + 1` suffices for a slice of length `n`. -/
def pdqsortF (less : α → α → Bool) : Nat → List α → Nat → Nat → Nat → Bool → Bool → List α
  | 0, l, _, _, _, _, _ => l
  | fuel + 1, l, a, b, limit, wasBalanced, wasPartitioned =>
    if b - a ≤ 12 then insertionSortF less l a b
    else if limit = 0 then heapSortF less l a b
    else
      let limit2 := if ¬wasBalanced then limit - 1 else limit
      let tryP := pdqTryP less l a b wasBalanced wasPartitioned
      let pivot := pdqPivot less l a b wasBalanced
      if tryP.1 then tryP.2
      else if 0 < a ∧ ¬less (getE tryP.2 (a - 1)) (getE tryP.2 pivot) then
        pdqsortF less fuel (partitionEqualF less tryP.2 a b pivot).2
          (partitionEqualF less tryP.2 a b pivot).1 b limit2 wasBalanced wasPartitioned
      else
        let r := partitionF less tryP.2 a b pivot
        let wasB := decide ((b - a) / 8 ≤ min (r.1 - a) (b - r.1))
        if r.1 - a < b - r.1 then
          pdqsortF less fuel (pdqsortF less fuel r.2.2 a r.1 limit2 true true)
            (r.1 + 1) b limit2 wasB r.2.1
        else
          pdqsortF less fuel (pdqsortF less fuel r.2.2 (r.1 + 1) b limit2 true true)
            a r.1 limit2 wasB r.2.1

/-- Go's `sort.Slice` on a list: `pdqsort_func(data, 0, n,
bits.Len(uint(n)))` with `n` the length. -/
def sortSlice (less : α → α → Bool) (l : List α) : List α :=
  pdqsortF less (l.length + 1) l 0 l.length (bitsLen l.length) true true

/-! ## Aggregator

`main.go` lines 64-125: partition decoded events by `addrKey` (a Go map of
slices, appended in file order), sort each group in place with `sort.Slice`
by parsed timestamp, derive first/last instant and the login flag, and sort
the resulting `ipInfos` by IP.  Go's map iteration order is unspecified, but
the final `sort.Slice` over the distinct keys makes the sequence independent
of it; the groups are instantiated in first-appearance order. -/

/-- The sort key of the `sort.Slice` comparator in `main.go` line 96:
`parseTimestamp(fmt.Sprint(evts[i]["timestamp"]))`. -/
def evKey (e : Ev) : Int := parseTimestamp (sprintField e "timestamp")

/-- The comparator closure passed to `sort.Slice`: `t1.Before(t2)`. -/
def evLess (x y : Ev) : Bool := decide (evKey x < evKey y)

/-- The `IPInfo` struct.  Go stores `FirstTimestamp`/`LastTimestamp` as the
RFC3339Nano renderings of the local `firstTime`/`lastTime` instants; the
rendering is display-only, so the instants themselves are kept. -/
structure IPInfo where
  ip : String
  firstTime : Int
  lastTime : Int
  hasLoginSuccess : Bool
  events : List Ev
deriving Repr, Inhabited, DecidableEq

/-- The comparator of the final `sort.Slice` over `ipInfos`:
`ipInfos[i].IP < ipInfos[j].IP`. -/
def ipLess (x y : IPInfo) : Bool := decide (x.ip < y.ip)

/-- The distinct address keys in first-appearance (file) order. -/
def groupKeys (evts : List Ev) : List String :=
  evts.foldl (fun acc e => if addrKey e ∈ acc then acc else acc ++ [addrKey e]) []

/-- The events appended to key `k`, in file order. -/
def groupOf (evts : List Ev) (k : String) : List Ev :=
  evts.filter (fun e => addrKey e = k)

/-- The body of the `for ip, evts := range eventsByIP` loop: sort the group,
take first/last parsed timestamps (zero when empty), scan for a
`cowrie.login.success` event (the `break` makes the loop `List.any`). -/
def mkIPInfo (k : String) (group : List Ev) : IPInfo :=
  let sorted := sortSlice evLess group
  let firstTime := if 0 < sorted.length then evKey (getE sorted 0) else 0
  let lastTime := if 0 < sorted.length then evKey (getE sorted (sorted.length - 1)) else 0
  let hasLoginSuccess := sorted.any fun e => sprintField e "eventid" == "cowrie.login.success"
  ⟨k, firstTime, lastTime, hasLoginSuccess, sorted⟩

/-- The aggregated model: one `IPInfo` per distinct key, sorted by IP. -/
def buildModel (evts : List Ev) : List IPInfo :=
  sortSlice ipLess ((groupKeys evts).map fun k => mkIPInfo k (groupOf evts k))

/-! ## Navigation state machine

The tview callbacks of `main.go` lines 178-211 as an explicit transition
function.  A table's selection is per-widget state that `SwitchToPage` does
not touch, so the summary and detail selections persist across screen
switches; `select` models the toolkit changing the focused table's selected
row, `confirm` the Enter key (`SetSelectedFunc`), `cancel` the Esc key
(`SetDoneFunc`), and the two buttons the modal's `SetDoneFunc`.  Reading a
detail cell beyond the populated rows yields an empty cell text. -/

inductive Screen where
  | summary : Screen
  | detail : Screen
  | modal : Screen
  | terminated : Screen
deriving DecidableEq, Repr

inductive NavInput where
  | select : Nat → NavInput
  | confirm : NavInput
  | cancel : NavInput
  | copyBtn : NavInput
  | closeBtn : NavInput

structure NavState where
  infos : List IPInfo
  screen : Screen
  summarySel : Nat
  detailSel : Nat
  currentEvents : List Ev
  modalCommand : Option String
  clipboard : Option String
deriving Repr

/-- The state when the app starts: summary page shown, the first selectable
row (row 1, below the fixed header) highlighted on both tables. -/
def navInit (infos : List IPInfo) : NavState :=
  ⟨infos, Screen.summary, 1, 1, [], none, none⟩

/-- The message cell text of detail row `r` (`detailTable.GetCell(row, 4)`):
rows are populated from `currentEvents` starting at row 1; unset cells read
as empty text. -/
def detailMessageAt (evts : List Ev) (r : Nat) : String :=
  match evts.get? (r - 1) with
  | some e => asString (lookupJ e "message")
  | none => ""

/-- One step of the navigation controller. -/
def navStep (s : NavState) (inp : NavInput) : NavState :=
  match s.screen, inp with
  | Screen.summary, NavInput.select i => { s with summarySel := i }
  | Screen.summary, NavInput.confirm =>
    if 0 < s.summarySel ∧ s.summarySel - 1 < s.infos.length then
      { s with screen := Screen.detail,
               currentEvents := (getE s.infos (s.summarySel - 1)).events }
    else s
  | Screen.summary, NavInput.cancel => { s with screen := Screen.terminated }
  | Screen.detail, NavInput.select i => { s with detailSel := i }
  | Screen.detail, NavInput.cancel => { s with screen := Screen.summary }
  | Screen.detail, NavInput.confirm =>
    if 0 < s.detailSel then
      match replayCommandOf (detailMessageAt s.currentEvents s.detailSel) with
      | some cmd => { s with screen := Screen.modal, modalCommand := some cmd }
      | none => s
    else s
  | Screen.modal, NavInput.copyBtn =>
    { s with screen := Screen.detail, modalCommand := none, clipboard := s.modalCommand }
  | Screen.modal, NavInput.closeBtn =>
    { s with screen := Screen.detail, modalCommand := none }
  | _, _ => s

/-- One rendered detail row (`showDetail`): timestamp, eventid,
username/password, input, message — all via `string` type assertions. -/
def detailRow (e : Ev) : String × String × String × String × String :=
  (asString (lookupJ e "timestamp"), asString (lookupJ e "eventid"),
   userinfoOf e, asString (lookupJ e "input"), asString (lookupJ e "message"))

/-- The rows rendered on the detail screen for an address. -/
def detailRows (evts : List Ev) : List (String × String × String × String × String) :=
  evts.map detailRow

/-! ## Event decoder

`json.Unmarshal([]byte(line), &evt)` with `evt : map[string]interface{}`:
parse one JSON value (surrounded by optional JSON whitespace), require it to
be an object (otherwise an `UnmarshalTypeError`), reject trailing input.
`Unmarshal` first runs `checkValid`, whose scanner admits only the escapes
`\" \\ \/ \b \f \n \r \t \u` (so `unquoteBytes`' `\'` quirk is unreachable),
rejects control characters inside strings, and errors past a nesting depth
of 10000; `\u` decoding then follows `unquoteBytes` (unpaired surrogates
become U+FFFD).  Duplicate keys overwrite.  Numbers decode into `float64`
via `strconv.ParseFloat`, whose range error on overflow (e.g. `1e999`)
makes the whole `Unmarshal` fail; in-range literals are carried as
literals. -/

/-- `2024-01-01T00:00:0v Z` for a digit `v`: thirteen distinct instants. -/
def tsOfDigit (v : Nat) : String := "2024-01-01T00:00:0" ++ toString v ++ "Z"

/-- An event of the single group `1.2.3.4`, tagged through its `input`
field. -/
def evC1 (v : Nat) (tag : String) : Ev :=
  [("src_ip", JVal.jstr "1.2.3.4"), ("timestamp", JVal.jstr (tsOfDigit v)),
   ("input", JVal.jstr tag)]

/-- Thirteen events of one group whose timestamp seconds follow the pattern
`4 0 7 5 0 7 1 1 2 3 9 8 6`; the two second-7 events are tagged `A` (earlier
in the file) and `B` (later). -/
def evtsC1 : List Ev :=
  [evC1 4 "t0", evC1 0 "t1", evC1 7 "A", evC1 5 "t3", evC1 0 "t4", evC1 7 "B",
   evC1 1 "t6", evC1 1 "t7", evC1 2 "t8", evC1 3 "t9", evC1 9 "t10", evC1 8 "t11",
   evC1 6 "t12"]

/-- C2, counterexample: an event with no source-address field is grouped
under the key `"UNKNOWN_IP"`, not under `"UNKNOWN"` as the claim states
(`main.go` line 80 spells the sentinel `"UNKNOWN_IP"`). -/
theorem claim_C2_cex :
    lookupJ ([] : Ev) "src_ip" = none ∧
    addrKey ([] : Ev) = "UNKNOWN_IP" ∧
    addrKey ([] : Ev) ≠ "UNKNOWN" ∧
    (buildModel [([] : Ev)]).map IPInfo.ip = ["UNKNOWN_IP"] := by
  refine ⟨rfl, rfl, by decide, rfl⟩

/-- C2 as amended: the sentinel is spelled `"UNKNOWN_IP"`.  The key is the
sentinel exactly when the `src_ip` field is missing, holds the empty string,
holds a non-string value, or is itself the literal string `"UNKNOWN_IP"`;
any other string value is used verbatim as the key. -/
theorem claim_C2 (e : Ev) :
    (addrKey e = "UNKNOWN_IP" ↔
      lookupJ e "src_ip" = none ∨
      lookupJ e "src_ip" = some (JVal.jstr "") ∨
      (∀ s, lookupJ e "src_ip" ≠ some (JVal.jstr s)) ∨
      lookupJ e "src_ip" = some (JVal.jstr "UNKNOWN_IP")) ∧
    (∀ s, s ≠ "" → lookupJ e "src_ip" = some (JVal.jstr s) → addrKey e = s) := by
  have hval : addrKey e =
      if asString (lookupJ e "src_ip") = "" then "UNKNOWN_IP"
      else asString (lookupJ e "src_ip") := rfl
  constructor
  · rw [hval]
    cases h : lookupJ e "src_ip" with
    | none => simp [asString]
    | some v =>
      cases v with
      | jstr s =>
        by_cases hs : s = ""
        · subst hs; simp [asString]
        · rw [show asString (some (JVal.jstr s)) = s from rfl, if_neg hs]
          constructor
          · intro hk
            exact Or.inr (Or.inr (Or.inr (by rw [hk])))
          · rintro (h1 | h1 | h1 | h1)
            · exact Option.noConfusion h1
            · injection h1 with h2; injection h2 with h3; exact absurd h3 hs
            · exact absurd rfl (h1 s)
            · simp only [Option.some.injEq, JVal.jstr.injEq] at h1; exact h1
      | jnull => simp [asString]
      | jbool b => simp [asString]
      | jnum s => simp [asString]
      | jarr xs => simp [asString]
      | jobj fs => simp [asString]
  · intro s hs hl
    rw [hval, hl]
    simp [asString, hs]

/-- Witness for C2: a present, non-empty address is used verbatim. -/
theorem claim_C2_witness :
    addrKey [("src_ip", JVal.jstr "7.7.7.7")] = "7.7.7.7" :=
  (claim_C2 [("src_ip", JVal.jstr "7.7.7.7")]).2 "7.7.7.7" (by decide) rfl

/-! ## C6: the timestamp normalizer -/

/-- C6, counterexample: the sentinel does not sort strictly first.
`"0000-12-31T23:59:59Z"` parses successfully to one second before the zero
instant, and `"0001-01-01T00:00:00Z"` parses to the zero instant itself. -/
theorem claim_C6_cex :
    rfc3339Parse "0000-12-31T23:59:59Z" = some (-1000000000) ∧
    parseTimestamp "0000-12-31T23:59:59Z" < 0 ∧
    rfc3339Parse "0001-01-01T00:00:00Z" = some 0 ∧
    ¬ ((0 : Int) < parseTimestamp "0000-12-31T23:59:59Z") := by
  refine ⟨by decide, by decide, by decide, by decide⟩

/-- C6 as amended: the normalizer is total — it returns the instant parsed
under the single accepted format, or the fixed sentinel zero instant on any
parse failure, and never an error; but the sentinel does not compare before
every successfully parsed instant (a year-0000 timestamp parses below it).
The sentinel is the instant of `0001-01-01T00:00:00Z` (Go's zero
`time.Time`). -/
theorem claim_C6 :
    (∀ s : String,
      (∃ t, rfc3339Parse s = some t ∧ parseTimestamp s = t) ∨
      (rfc3339Parse s = none ∧ parseTimestamp s = 0)) ∧
    rfc3339Parse "0001-01-01T00:00:00Z" = some 0 := by
  constructor
  · intro s
    unfold parseTimestamp
    cases h : rfc3339Parse s with
    | none => exact Or.inr ⟨rfl, rfl⟩
    | some t => exact Or.inl ⟨t, rfl, rfl⟩
  · decide

/-! ## C7: the combined identity column -/

/-- C7, counterexample: an event whose `username` and `password` fields are
both present and hold empty strings renders the identity column as `""`,
not as `"/"` as the claim's "otherwise username/password" branch states. -/
theorem claim_C7_cex :
    lookupJ [("username", JVal.jstr ""), ("password", JVal.jstr "")] "username" ≠ none ∧
    lookupJ [("username", JVal.jstr ""), ("password", JVal.jstr "")] "password" ≠ none ∧
    userinfoOf [("username", JVal.jstr ""), ("password", JVal.jstr "")] = "" ∧
    ("" : String) ≠ "/" := by
  refine ⟨by decide, by decide, rfl, by decide⟩

/-- C7 as amended: the identity column is empty when both extracted strings
are empty (the field being absent, the empty string, or a non-string value
all extract to `""`), and otherwise is `username ++ "/" ++ password`, even
when one side is empty. -/
theorem claim_C7 (e : Ev) :
    (detailRow e).2.2.1 = userinfoOf e ∧
    (asString (lookupJ e "username") = "" ∧ asString (lookupJ e "password") = "" →
      userinfoOf e = "") ∧
    (asString (lookupJ e "username") ≠ "" ∨ asString (lookupJ e "password") ≠ "" →
      userinfoOf e =
        asString (lookupJ e "username") ++ "/" ++ asString (lookupJ e "password")) := by
  refine ⟨rfl, ?_, ?_⟩
  · intro ⟨h1, h2⟩
    unfold userinfoOf
    simp [h1, h2]
  · intro h
    unfold userinfoOf
    rw [if_pos h]

/-- Witness for C7: `username = "root"`, `password = ""` renders as
`"root/"`. -/
theorem claim_C7_witness :
    userinfoOf [("username", JVal.jstr "root")] = "root/" := by
  have := (claim_C7 [("username", JVal.jstr "root")]).2.2 (Or.inl (by decide))
  rw [this]; rfl

/-! ## C3: the replay command builder -/

/-- The detail-confirm transition, unfolded on an explicit state. -/
theorem navStep_detail_confirm (infos summarySel detailSel currentEvents modalCommand clipboard) :
    navStep ⟨infos, Screen.detail, summarySel, detailSel, currentEvents, modalCommand, clipboard⟩
        NavInput.confirm =
      if 0 < detailSel then
        match replayCommandOf (detailMessageAt currentEvents detailSel) with
        | some cmd =>
          ⟨infos, Screen.modal, summarySel, detailSel, currentEvents, some cmd, clipboard⟩
        | none =>
          ⟨infos, Screen.detail, summarySel, detailSel, currentEvents, modalCommand, clipboard⟩
      else ⟨infos, Screen.detail, summarySel, detailSel, currentEvents, modalCommand, clipboard⟩ :=
  rfl

/-- A non-empty needle cannot occur at or beyond the end of the haystack. -/
theorem occursAt_false_of_len (needle hay : List Char) (hne : needle ≠ [])
    (i : Nat) (h : hay.length ≤ i) : occursAtB needle hay i = false := by
  unfold occursAtB
  rw [List.drop_eq_nil_of_le h]
  cases needle with
  | nil => exact absurd rfl hne
  | cons c t => rfl

/-- In a strictly increasing list, an element that bounds all others is the
last one. -/
theorem getLast?_eq_of_max {l : List Nat} {i : Nat} (hp : l.Pairwise (· < ·))
    (hmem : i ∈ l) (hmax : ∀ j ∈ l, j ≤ i) : l.getLast? = some i := by
  induction l with
  | nil => exact absurd hmem (List.not_mem_nil i)
  | cons a t ih =>
    cases t with
    | nil =>
      rcases List.mem_singleton.mp hmem with rfl
      rfl
    | cons b t' =>
      rw [List.getLast?_cons_cons]
      have hab : a < b := (List.pairwise_cons.mp hp).1 b (List.mem_cons_self b t')
      have hi : i ∈ b :: t' := by
        rcases List.mem_cons.mp hmem with h | h
        · exfalso
          have hb := hmax b (List.mem_cons_of_mem _ (List.mem_cons_self b t'))
          rw [h] at hb
          omega
        · exact h
      exact ih (List.pairwise_cons.mp hp).2 hi
        fun j hj => hmax j (List.mem_cons_of_mem _ hj)

/-- `strings.LastIndex` misses: no occurrence anywhere. -/
theorem lastIndexL_eq_none {hay needle : List Char}
    (h : ∀ i, occursAtB needle hay i = false) : lastIndexL hay needle = none := by
  unfold lastIndexL
  have hnil : (List.range (hay.length + 1)).filter (occursAtB needle hay) = [] := by
    apply List.filter_eq_nil_iff.mpr
    intro a _
    rw [h a]
    exact Bool.false_ne_true
  rw [hnil]
  rfl

/-- `strings.LastIndex` hits: the position of the last occurrence. -/
theorem lastIndexL_eq_some {hay needle : List Char} {i : Nat} (hne : needle ≠ [])
    (hocc : occursAtB needle hay i = true)
    (hlast : ∀ j, i < j → occursAtB needle hay j = false) :
    lastIndexL hay needle = some i := by
  unfold lastIndexL
  have hlen : i < hay.length + 1 := by
    have hpre : needle <+: hay.drop i := List.isPrefixOf_iff_prefix.mp hocc
    have h1 : needle.length ≤ hay.length - i := by
      have := hpre.length_le
      simpa using this
    have h2 : 0 < needle.length := List.length_pos.mpr hne
    omega
  apply getLast?_eq_of_max
  · exact (List.pairwise_lt_range _).filter _
  · exact List.mem_filter.mpr ⟨List.mem_range.mpr hlen, hocc⟩
  · intro j hj
    have hocc' := (List.mem_filter.mp hj).2
    by_contra hgt
    rw [hlast j (by omega)] at hocc'
    exact Bool.false_ne_true hocc'

/-- C3: the replay builder.  The two concrete examples of the claim; a
message without the fixed prefix yields no command and leaves the navigation
state unchanged (no modal); with the prefix, the remainder is used verbatim
when `" after "` never occurs, and is truncated at the last occurrence
otherwise. -/
theorem claim_C3 :
    (replayCommandOf "Closing TTY Log: logs/tty/abc123 after 12 seconds" =
       some "/cowrie/cowrie-git/bin/playlog /cowrie/cowrie-git/logs/tty/abc123") ∧
    (replayCommandOf "Closing TTY Log: logs/tty/abc123" =
       some "/cowrie/cowrie-git/bin/playlog /cowrie/cowrie-git/logs/tty/abc123") ∧
    (∀ m : String, ¬ ttyPfx.isPrefixOf m.toList →
       replayCommandOf m = none ∧
       ∀ s : NavState, s.screen = Screen.detail →
         detailMessageAt s.currentEvents s.detailSel = m →
         navStep s NavInput.confirm = s) ∧
    (∀ r : List Char,
       (∀ i, occursAtB afterDelim r i = false) →
       replayCommandOf (String.mk (ttyPfx ++ r)) =
         some (String.mk ("/cowrie/cowrie-git/bin/playlog /cowrie/cowrie-git/".toList ++ r))) ∧
    (∀ r : List Char, ∀ i : Nat,
       occursAtB afterDelim r i = true →
       (∀ j, i < j → occursAtB afterDelim r j = false) →
       replayCommandOf (String.mk (ttyPfx ++ r)) =
         some (String.mk
           ("/cowrie/cowrie-git/bin/playlog /cowrie/cowrie-git/".toList ++ r.take i))) := by
  refine ⟨by decide, by decide, ?_, ?_, ?_⟩
  · intro m hm
    have hr : replayCommandOf m = none := by
      unfold replayCommandOf
      rw [if_neg (by simpa using hm)]
    refine ⟨hr, ?_⟩
    intro s hscreen hmsg
    obtain ⟨infos, screen, summarySel, detailSel, currentEvents, modalCommand, clipboard⟩ := s
    simp only at hscreen hmsg
    subst hscreen
    rw [navStep_detail_confirm, hmsg, hr]
    split <;> rfl
  · intro r hno
    have hpre : ttyPfx.isPrefixOf (String.mk (ttyPfx ++ r)).toList = true :=
      List.isPrefixOf_iff_prefix.mpr (List.prefix_append _ _)
    unfold replayCommandOf extractTTYLogCommand trimPfxL
    rw [if_pos hpre, if_pos hpre]
    show some (String.mk (_ ++ (match lastIndexL ((ttyPfx ++ r).drop ttyPfx.length) afterDelim with
      | some idx => ((ttyPfx ++ r).drop ttyPfx.length).take idx
      | none => (ttyPfx ++ r).drop ttyPfx.length))) = _
    rw [List.drop_left, lastIndexL_eq_none hno]
  · intro r i hocc hlast
    have hpre : ttyPfx.isPrefixOf (String.mk (ttyPfx ++ r)).toList = true :=
      List.isPrefixOf_iff_prefix.mpr (List.prefix_append _ _)
    unfold replayCommandOf extractTTYLogCommand trimPfxL
    rw [if_pos hpre, if_pos hpre]
    show some (String.mk (_ ++ (match lastIndexL ((ttyPfx ++ r).drop ttyPfx.length) afterDelim with
      | some idx => ((ttyPfx ++ r).drop ttyPfx.length).take idx
      | none => (ttyPfx ++ r).drop ttyPfx.length))) = _
    rw [List.drop_left, lastIndexL_eq_some (by decide) hocc hlast]

/-- Witness for C3: no-prefix message with a concrete detail state; a
delimiter-free remainder; a remainder with two occurrences truncated at the
later one (position 1 of `"a after b after c"` is an occurrence too, but 9
is the last). -/
theorem claim_C3_witness :
    replayCommandOf "hello" = none ∧
    navStep (⟨[], Screen.detail, 1, 1, [[("message", JVal.jstr "hello")]], none, none⟩ : NavState)
      NavInput.confirm =
      (⟨[], Screen.detail, 1, 1, [[("message", JVal.jstr "hello")]], none, none⟩ : NavState) ∧
    replayCommandOf (String.mk (ttyPfx ++ "x y".toList)) =
      some (String.mk ("/cowrie/cowrie-git/bin/playlog /cowrie/cowrie-git/".toList ++
        "x y".toList)) ∧
    replayCommandOf (String.mk (ttyPfx ++ "a after b after c".toList)) =
      some (String.mk ("/cowrie/cowrie-git/bin/playlog /cowrie/cowrie-git/".toList ++
        ("a after b after c".toList).take 9)) := by
  have hxy : ∀ i, occursAtB afterDelim "x y".toList i = false := by
    intro i
    match i with
    | 0 => rfl
    | 1 => rfl
    | 2 => rfl
    | (n + 3) => exact occursAt_false_of_len _ _ (by decide) _ (by simp)
  have habc : ∀ j, 9 < j → occursAtB afterDelim "a after b after c".toList j = false := by
    intro j hj
    have hlen17 : ("a after b after c".toList).length = 17 := rfl
    by_cases hlen : 17 ≤ j
    · exact occursAt_false_of_len _ _ (by decide) _ (by rw [hlen17]; exact hlen)
    · push_neg at hlen
      interval_cases j <;> rfl
  refine ⟨(claim_C3.2.2.1 "hello" (by decide)).1, ?_, ?_, ?_⟩
  · exact (claim_C3.2.2.1 "hello" (by decide)).2 _ rfl rfl
  · exact claim_C3.2.2.2.1 "x y".toList hxy
  · exact claim_C3.2.2.2.2 "a after b after c".toList 9 rfl habc

/-! ## C9: selection preserved across the Detail round trip -/

/-- C9: from the Summary screen with a valid data row `i` selected,
confirming dives into Detail and cancelling returns to Summary with row `i`
still the selected row (the summary table's selection is never written by
either transition). -/
theorem claim_C9 (s : NavState) (i : Nat)
    (hscreen : s.screen = Screen.summary) (hsel : s.summarySel = i)
    (hpos : 0 < i) (hlt : i - 1 < s.infos.length) :
    (navStep s NavInput.confirm).screen = Screen.detail ∧
    (navStep (navStep s NavInput.confirm) NavInput.cancel).screen = Screen.summary ∧
    (navStep (navStep s NavInput.confirm) NavInput.cancel).summarySel = i := by
  obtain ⟨infos, screen, summarySel, detailSel, currentEvents, modalCommand, clipboard⟩ := s
  simp only at hscreen hsel hlt
  subst hscreen hsel
  have hif : 0 < summarySel ∧ summarySel - 1 < infos.length := ⟨hpos, hlt⟩
  simp [navStep, if_pos hif]

/-- Witness for C9: three rows, row 2 selected, confirm then cancel. -/
theorem claim_C9_witness :
    (navStep (navStep { navInit (List.replicate 3 default) with summarySel := 2 }
        NavInput.confirm) NavInput.cancel).summarySel = 2 :=
  (claim_C9 { navInit (List.replicate 3 default) with summarySel := 2 } 2
    rfl rfl (by decide) (by decide)).2.2

/-! ## The `sort.Slice` toolkit

The correctness argument for the embedded pdqsort: every routine permutes
the slice within its window and leaves the rest untouched (`permWithin`),
and the sorting routines establish `sortedRange`.  The comparator is always
of the form `fun x y => decide (key x < key y)` for a key into a linear
order, which is how both call sites in `main.go` use it. -/

section SortToolkit

variable {α : Type} [Inhabited α] {β : Type} [LinearOrder β]

/-- The shape of both comparators in `main.go`: strict order on a key. -/
def lessK (key : α → β) : α → α → Bool := fun x y => decide (key x < key y)

/-- The window `[lo, hi)` of `l`, read through `getE`. -/
def slice (l : List α) (lo hi : Nat) : List α :=
  (List.range (hi - lo)).map fun k => getE l (lo + k)

/-- `l` is sorted by `key` on the window `[lo, hi)`. -/
def sortedRange (key : α → β) (l : List α) (lo hi : Nat) : Prop :=
  ∀ i j, lo ≤ i → i ≤ j → j < hi → key (getE l i) ≤ key (getE l j)

/-- `l'` is `l` with the window `[lo, hi)` permuted: same length, untouched
outside, and the window contents are a permutation. -/
def permWithin (l l' : List α) (lo hi : Nat) : Prop :=
  l'.length = l.length ∧ (∀ k, k < lo ∨ hi ≤ k → getE l' k = getE l k) ∧
    List.Perm (slice l' lo hi) (slice l lo hi)

theorem permWithin_refl (l : List α) (lo hi : Nat) : permWithin l l lo hi :=
  ⟨rfl, fun _ _ => rfl, List.Perm.refl _⟩

/-- `getE` through the optional index. -/
theorem getE_eq (m : List α) (k : Nat) : getE m k = (m[k]?).getD default := by
  simp [getE]

theorem slice_congr {l l' : List α} {lo hi : Nat}
    (h : ∀ k, lo ≤ k → k < hi → getE l k = getE l' k) :
    slice l lo hi = slice l' lo hi := by
  unfold slice
  apply List.map_congr_left
  intro k hk
  exact h (lo + k) (Nat.le_add_right lo k)
    (by have := List.mem_range.mp hk; omega)

theorem permWithin_trans {l₁ l₂ l₃ : List α} {lo hi : Nat}
    (h₁ : permWithin l₁ l₂ lo hi) (h₂ : permWithin l₂ l₃ lo hi) :
    permWithin l₁ l₃ lo hi :=
  ⟨h₂.1.trans h₁.1, fun k hk => (h₂.2.1 k hk).trans (h₁.2.1 k hk),
   h₂.2.2.trans h₁.2.2⟩

theorem slice_decomp (l : List α) {lo m hi : Nat} (h₁ : lo ≤ m) (h₂ : m ≤ hi) :
    slice l lo hi = slice l lo m ++ slice l m hi := by
  unfold slice
  have hsum : hi - lo = (m - lo) + (hi - m) := by omega
  rw [hsum, List.range_add, List.map_append, List.map_map]
  congr 1
  apply List.map_congr_left
  intro k _
  simp only [Function.comp_apply]
  congr 1
  omega

theorem slice_single (l : List α) (k : Nat) : slice l k (k + 1) = [getE l k] := by
  unfold slice
  have h1 : k + 1 - k = 1 := by omega
  rw [h1]
  simp [List.range_succ]

/-- Every window element is a `getE` value at a window index. -/
theorem mem_slice_iff {l : List α} {lo hi : Nat} {x : α} :
    x ∈ slice l lo hi ↔ ∃ k, lo ≤ k ∧ k < hi ∧ x = getE l k := by
  unfold slice
  simp only [List.mem_map, List.mem_range]
  constructor
  · rintro ⟨k, hk, rfl⟩
    exact ⟨lo + k, Nat.le_add_right lo k, by omega, rfl⟩
  · rintro ⟨k, hk1, hk2, rfl⟩
    exact ⟨k - lo, by omega, by congr 1; omega⟩

theorem getE_mem_slice {l : List α} {lo hi k : Nat} (h₁ : lo ≤ k) (h₂ : k < hi) :
    getE l k ∈ slice l lo hi :=
  mem_slice_iff.mpr ⟨k, h₁, h₂, rfl⟩

/-- Enlarging the window of a `permWithin`. -/
theorem permWithin_mono {l l' : List α} {lo' hi' lo hi : Nat}
    (hlo : lo ≤ lo') (hhi : hi' ≤ hi) (hwin : lo' ≤ hi')
    (h : permWithin l l' lo' hi') : permWithin l l' lo hi := by
  refine ⟨h.1, fun k hk => h.2.1 k (by omega), ?_⟩
  rw [slice_decomp l' (show lo ≤ lo' from hlo) (show lo' ≤ hi by omega),
      slice_decomp l' (show lo' ≤ hi' from hwin) (show hi' ≤ hi from hhi),
      slice_decomp l (show lo ≤ lo' from hlo) (show lo' ≤ hi by omega),
      slice_decomp l (show lo' ≤ hi' from hwin) (show hi' ≤ hi from hhi)]
  have e1 : slice l' lo lo' = slice l lo lo' :=
    slice_congr fun k h1 h2 => h.2.1 k (Or.inl h2)
  have e2 : slice l' hi' hi = slice l hi' hi :=
    slice_congr fun k h1 h2 => h.2.1 k (Or.inr h1)
  rw [e1, e2]
  exact (List.Perm.refl _).append (h.2.2.append (List.Perm.refl _))

theorem length_lswap (l : List α) (i j : Nat) : (lswap l i j).length = l.length := by
  unfold lswap
  simp

theorem getE_lswap_fst {l : List α} {i j : Nat} (hi : i < l.length) (hj : j < l.length) :
    getE (lswap l i j) j = getE l i := by
  show getE ((l.set i (getE l j)).set j (getE l i)) j = getE l i
  rw [getE_eq, List.getElem?_set_self (by simpa using hj)]
  rfl

theorem getE_lswap_snd {l : List α} {i j : Nat} (hi : i < l.length) (hj : j < l.length) :
    getE (lswap l i j) i = getE l j := by
  show getE ((l.set i (getE l j)).set j (getE l i)) i = getE l j
  by_cases hij : i = j
  · subst hij
    rw [getE_eq, List.getElem?_set_self (by simpa using hj)]
    rfl
  · rw [getE_eq, List.getElem?_set_ne (Ne.symm hij), List.getElem?_set_self hi]
    rfl

theorem getE_lswap_other {l : List α} {i j k : Nat} (h₁ : k ≠ i) (h₂ : k ≠ j) :
    getE (lswap l i j) k = getE l k := by
  show getE ((l.set i (getE l j)).set j (getE l i)) k = getE l k
  rw [getE_eq, List.getElem?_set_ne (Ne.symm h₂), List.getElem?_set_ne (Ne.symm h₁),
      ← getE_eq]

theorem lswap_self (l : List α) (i : Nat) : lswap l i i = l := by
  show (l.set i (getE l i)).set i (getE l i) = l
  by_cases hi : i < l.length
  · apply List.ext_getElem?
    intro k
    by_cases hk : k = i
    · subst hk
      rw [List.getElem?_set_self (by simpa using hi), List.getElem?_eq_getElem hi]
      congr 1
      rw [getE_eq, List.getElem?_eq_getElem hi]
      rfl
    · rw [List.getElem?_set_ne (Ne.symm hk), List.getElem?_set_ne (Ne.symm hk)]
  · have hle : l.length ≤ i := by omega
    rw [List.set_eq_of_length_le (by simpa using hle), List.set_eq_of_length_le hle]

/-- Swapping two window positions permutes the window. -/
theorem lswap_permWithin {l : List α} {i j lo hi : Nat}
    (hil : i < l.length) (hjl : j < l.length)
    (h1 : lo ≤ i) (h2 : i < hi) (h3 : lo ≤ j) (h4 : j < hi) :
    permWithin l (lswap l i j) lo hi := by
  rcases Nat.lt_trichotomy i j with hij | hij | hij
  case inr.inl =>
    subst hij
    rw [lswap_self]
    exact permWithin_refl l lo hi
  case inl =>
    refine ⟨length_lswap l i j, fun k hk => getE_lswap_other (by omega) (by omega), ?_⟩
    have d1 : ∀ m : List α, slice m lo hi =
        slice m lo i ++ slice m i (i + 1) ++ slice m (i + 1) j ++
        slice m j (j + 1) ++ slice m (j + 1) hi := by
      intro m
      rw [slice_decomp m (show lo ≤ j + 1 by omega) (show j + 1 ≤ hi by omega),
          slice_decomp m (show lo ≤ j by omega) (show j ≤ j + 1 by omega),
          slice_decomp m (show lo ≤ i + 1 by omega) (show i + 1 ≤ j by omega),
          slice_decomp m (show lo ≤ i by omega) (show i ≤ i + 1 by omega)]
    rw [d1 (lswap l i j), d1 l]
    have e1 : slice (lswap l i j) lo i = slice l lo i :=
      slice_congr fun k hk1 hk2 => getE_lswap_other (by omega) (by omega)
    have e2 : slice (lswap l i j) (i + 1) j = slice l (i + 1) j :=
      slice_congr fun k hk1 hk2 => getE_lswap_other (by omega) (by omega)
    have e3 : slice (lswap l i j) (j + 1) hi = slice l (j + 1) hi :=
      slice_congr fun k hk1 hk2 => getE_lswap_other (by omega) (by omega)
    rw [e1, e2, e3, slice_single, slice_single, slice_single, slice_single,
        getE_lswap_fst hil hjl, getE_lswap_snd hil hjl]
    have core : ∀ (B C : List α) (x y : α),
        List.Perm ([y] ++ B ++ [x] ++ C) ([x] ++ B ++ [y] ++ C) := by
      intro B C x y
      have p1 : List.Perm ([y] ++ B ++ [x] ++ C) (y :: x :: (B ++ C)) := by
        simp only [List.cons_append, List.nil_append, List.append_assoc]
        exact List.Perm.cons y List.perm_middle
      have p2 : List.Perm ([x] ++ B ++ [y] ++ C) (x :: y :: (B ++ C)) := by
        simp only [List.cons_append, List.nil_append, List.append_assoc]
        exact List.Perm.cons x List.perm_middle
      exact (p1.trans (List.Perm.swap x y _)).trans p2.symm
    have ha1 : slice l lo i ++ [getE l j] ++ slice l (i + 1) j ++ [getE l i] ++
          slice l (j + 1) hi =
        slice l lo i ++ ([getE l j] ++ slice l (i + 1) j ++ [getE l i] ++
          slice l (j + 1) hi) := by
      simp [List.append_assoc]
    have ha2 : slice l lo i ++ [getE l i] ++ slice l (i + 1) j ++ [getE l j] ++
          slice l (j + 1) hi =
        slice l lo i ++ ([getE l i] ++ slice l (i + 1) j ++ [getE l j] ++
          slice l (j + 1) hi) := by
      simp [List.append_assoc]
    rw [ha1, ha2]
    exact List.Perm.append_left _ (core _ _ (getE l i) (getE l j))
  case inr.inr =>
    -- i > j: symmetric; lswap l i j has the same effect as lswap l j i
    have hsym : lswap l i j = lswap l j i := by
      unfold lswap
      apply List.ext_getElem?
      intro k
      by_cases hk1 : k = i
      · subst hk1
        rw [List.getElem?_set_ne (by omega), List.getElem?_set_self (by simpa using hil),
            List.getElem?_set_self (by simpa using hil)]
      · by_cases hk2 : k = j
        · subst hk2
          rw [List.getElem?_set_self (by simpa using hjl),
              List.getElem?_set_ne (by omega), List.getElem?_set_self (by simpa using hjl)]
        · rw [List.getElem?_set_ne (Ne.symm hk2), List.getElem?_set_ne (Ne.symm hk1),
              List.getElem?_set_ne (Ne.symm hk1), List.getElem?_set_ne (Ne.symm hk2)]
    rw [hsym]
    exact lswap_permWithin hjl hil h3 h4 h1 h2

/-- A window with at most one position is sorted. -/
theorem sortedRange_of_small {key : α → β} {l : List α} {lo hi : Nat}
    (h : hi ≤ lo + 1) : sortedRange key l lo hi := by
  intro i j h1 h2 h3
  have : i = j := by omega
  subst this
  exact le_refl _

/-- Restricting the window of a `sortedRange`. -/
theorem sortedRange_mono {key : α → β} {l : List α} {lo' hi' lo hi : Nat}
    (h1 : lo' ≤ lo) (h2 : hi ≤ hi') (h : sortedRange key l lo' hi') :
    sortedRange key l lo hi :=
  fun i j hi1 hi2 hi3 => h i j (by omega) hi2 (by omega)

/-- The interpretation of the comparator. -/
theorem lessK_eq_true {key : α → β} {x y : α} : lessK key x y = true ↔ key x < key y := by
  simp [lessK]

theorem lessK_eq_false {key : α → β} {x y : α} : lessK key x y = false ↔ key y ≤ key x := by
  simp [lessK]

/-- The invariant of the inner insertion loop at position `j`, inserting
into the sorted prefix of a pass that reached position `i`. -/
def insInv (key : α → β) (l : List α) (a j i : Nat) : Prop :=
  sortedRange key l a j ∧ sortedRange key l j (i + 1) ∧
  ∀ p q, a ≤ p → p < j → j < q → q ≤ i → key (getE l p) ≤ key (getE l q)

theorem insInner_spec {key : α → β} {a i : Nat} :
    ∀ (j : Nat) (l : List α), j ≤ i → i < l.length → insInv key l a j i →
    sortedRange key (insInner (lessK key) a j l) a (i + 1) ∧
    permWithin l (insInner (lessK key) a j l) a (i + 1) := by
  intro j
  induction j with
  | zero =>
    intro l _ _ hinv
    refine ⟨?_, permWithin_refl l a (i + 1)⟩
    show sortedRange key l a (i + 1)
    exact sortedRange_mono (Nat.zero_le a) (le_refl _) hinv.2.1
  | succ j ih =>
    intro l hji hil hinv
    have heq : insInner (lessK key) a (j + 1) l =
        if a ≤ j ∧ lessK key (getE l (j + 1)) (getE l j) then
          insInner (lessK key) a j (lswap l j (j + 1))
        else l := rfl
    rw [heq]
    by_cases hc : a ≤ j ∧ lessK key (getE l (j + 1)) (getE l j)
    · rw [if_pos hc]
      obtain ⟨haj, hless⟩ := hc
      have hlt : key (getE l (j + 1)) < key (getE l j) := lessK_eq_true.mp hless
      have hjl : j < l.length := by omega
      have hj1l : j + 1 < l.length := by omega
      set m := lswap l j (j + 1) with hm
      have hmj : getE m j = getE l (j + 1) := getE_lswap_snd hjl hj1l
      have hmj1 : getE m (j + 1) = getE l j := getE_lswap_fst hjl hj1l
      have hmo : ∀ k, k ≠ j → k ≠ j + 1 → getE m k = getE l k :=
        fun k h1 h2 => getE_lswap_other h1 h2
      have hinv' : insInv key m a j i := by
        refine ⟨?_, ?_, ?_⟩
        · intro p q h1 h2 h3
          rw [hmo p (by omega) (by omega), hmo q (by omega) (by omega)]
          exact hinv.1 p q h1 h2 (by omega)
        · intro p q h1 h2 h3
          rcases Nat.eq_or_lt_of_le h1 with rfl | hpj
          · -- p = j
            rcases Nat.eq_or_lt_of_le h2 with rfl | hq
            · exact le_refl _
            · rcases Nat.eq_or_lt_of_le (Nat.succ_le_of_lt hq) with hq1 | hq2
              · rw [hmj, ← hq1, hmj1]
                exact le_of_lt hlt
              · rw [hmj, hmo q (by omega) (by omega)]
                exact hinv.2.1 (j + 1) q (le_refl _) (by omega) h3
          · rcases Nat.eq_or_lt_of_le (Nat.succ_le_of_lt hpj) with hp1 | hp2
            · -- p = j + 1
              rcases Nat.eq_or_lt_of_le h2 with rfl | hq
              · exact le_refl _
              · rw [← hp1, hmj1, hmo q (by omega) (by omega)]
                exact hinv.2.2 j q haj (by omega) (by omega) (by omega)
            · rw [hmo p (by omega) (by omega), hmo q (by omega) (by omega)]
              exact hinv.2.1 p q (by omega) h2 h3
        · intro p q h1 h2 h3 h4
          rw [hmo p (by omega) (by omega)]
          rcases Nat.eq_or_lt_of_le (Nat.succ_le_of_lt h3) with hq1 | hq2
          · rw [← hq1, hmj1]
            exact hinv.1 p j h1 (by omega) (by omega)
          · rw [hmo q (by omega) (by omega)]
            exact hinv.2.2 p q h1 (by omega) (by omega) h4
      have hrec := ih m (by omega) (by rw [length_lswap]; exact hil) hinv'
      refine ⟨hrec.1, ?_⟩
      have hswap : permWithin l m a (i + 1) :=
        lswap_permWithin hjl hj1l haj (by omega) (by omega) (by omega)
      exact permWithin_trans hswap hrec.2
    · rw [if_neg hc]
      refine ⟨?_, permWithin_refl l a (i + 1)⟩
      intro p q h1 h2 h3
      by_cases haj : a ≤ j
      · -- the loop stopped because the elements are in order
        have hle : key (getE l j) ≤ key (getE l (j + 1)) := by
          rcases Bool.eq_false_or_eq_true (lessK key (getE l (j + 1)) (getE l j)) with ht | hf
          · exact absurd ⟨haj, ht⟩ hc
          · exact lessK_eq_false.mp hf
        rcases Nat.lt_or_ge q (j + 1) with hq | hq
        · exact hinv.1 p q h1 h2 hq
        · rcases Nat.lt_or_ge p (j + 1) with hp | hp
          · have hpj : key (getE l p) ≤ key (getE l j) :=
              hinv.1 p j h1 (by omega) (by omega)
            rcases Nat.eq_or_lt_of_le hq with hq1 | hq2
            · rw [← hq1]
              exact hpj.trans hle
            · calc key (getE l p) ≤ key (getE l j) := hpj
                _ ≤ key (getE l (j + 1)) := hle
                _ ≤ key (getE l q) := hinv.2.1 (j + 1) q (by omega) (by omega) h3
          · exact hinv.2.1 p q (by omega) h2 h3
      · -- j < a: the window [a, i+1) is inside [j+1, i+1)
        exact hinv.2.1 p q (by omega) h2 h3

theorem insOuter_spec {key : α → β} {a b : Nat} :
    ∀ (n i : Nat) (l : List α), i + n = b → a ≤ i → b ≤ l.length →
    sortedRange key l a i →
    sortedRange key (insOuter (lessK key) a n i l) a b ∧
    permWithin l (insOuter (lessK key) a n i l) a b := by
  intro n
  induction n with
  | zero =>
    intro i l hib _ _ hsort
    have : i = b := by omega
    subst this
    exact ⟨hsort, permWithin_refl l a _⟩
  | succ n ih =>
    intro i l hib hai hbl hsort
    show sortedRange key (insOuter (lessK key) a n (i + 1) (insInner (lessK key) a i l)) a b ∧ _
    have hinner := insInner_spec i l (le_refl i) (by omega)
      ⟨hsort, sortedRange_of_small (le_refl _), fun p q h1 h2 h3 h4 => by omega⟩
    have hrec := ih (i + 1) (insInner (lessK key) a i l) (by omega) (by omega)
      (by rw [hinner.2.1]; exact hbl) hinner.1
    refine ⟨hrec.1, ?_⟩
    exact permWithin_trans
      (permWithin_mono (le_refl a) (by omega) (by omega) hinner.2) hrec.2

/-- `insertionSort_func` sorts its window and permutes only the window. -/
theorem insertionSortF_spec {key : α → β} {l : List α} {a b : Nat}
    (hbl : b ≤ l.length) :
    sortedRange key (insertionSortF (lessK key) l a b) a b ∧
    permWithin l (insertionSortF (lessK key) l a b) a b := by
  unfold insertionSortF
  rcases Nat.lt_or_ge b (a + 1) with hb | hb
  · have h0 : b - (a + 1) = 0 := by omega
    rw [h0]
    exact ⟨sortedRange_of_small (by omega), permWithin_refl l a b⟩
  · exact insOuter_spec (b - (a + 1)) (a + 1) l (by omega) (by omega) hbl
      (sortedRange_of_small (le_refl _))

/-- A pointwise property of the window survives a window permutation. -/
theorem forall_getE_of_permWithin {l l' : List α} {lo hi : Nat}
    (h : permWithin l l' lo hi) (P : α → Prop)
    (hP : ∀ k, lo ≤ k → k < hi → P (getE l k)) :
    ∀ k, lo ≤ k → k < hi → P (getE l' k) := by
  intro k h1 h2
  have hmem : getE l' k ∈ slice l lo hi := h.2.2.mem_iff.mp (getE_mem_slice h1 h2)
  obtain ⟨k', hk1, hk2, hk3⟩ := mem_slice_iff.mp hmem
  rw [hk3]
  exact hP k' hk1 hk2

/-- The partition loop: positions `[a+1, i)` hold keys below the pivot,
positions `(j, b)` hold keys at or above it, position `a` holds the pivot;
at exit `i = j + 1` and the returned `j` separates the window. -/
theorem partLoop_spec {key : α → β} {a b : Nat} {pv : α} :
    ∀ (fuel i j : Nat) (sw : Bool) (l : List α),
    j + 1 - i < fuel →
    a + 1 ≤ i → i ≤ j + 1 → j ≤ b - 1 → b ≤ l.length → a < b →
    getE l a = pv →
    (∀ p, a + 1 ≤ p → p < i → key (getE l p) < key pv) →
    (∀ q, j < q → q < b → key pv ≤ key (getE l q)) →
    permWithin l (partLoopF (lessK key) a fuel i j sw l).2.2 (a + 1) b ∧
    a ≤ (partLoopF (lessK key) a fuel i j sw l).1 ∧
    (partLoopF (lessK key) a fuel i j sw l).1 ≤ b - 1 ∧
    getE (partLoopF (lessK key) a fuel i j sw l).2.2 a = pv ∧
    (∀ p, a + 1 ≤ p → p ≤ (partLoopF (lessK key) a fuel i j sw l).1 →
      key (getE (partLoopF (lessK key) a fuel i j sw l).2.2 p) < key pv) ∧
    (∀ q, (partLoopF (lessK key) a fuel i j sw l).1 < q → q < b →
      key pv ≤ key (getE (partLoopF (lessK key) a fuel i j sw l).2.2 q)) := by
  intro fuel
  induction fuel with
  | zero =>
    intro i j sw l hfuel
    omega
  | succ fuel ih =>
    intro i j sw l hfuel hai hij hjb hbl hab hpv hpre hsuf
    have heq : partLoopF (lessK key) a (fuel + 1) i j sw l =
        if i ≤ j ∧ lessK key (getE l i) (getE l a) then
          partLoopF (lessK key) a fuel (i + 1) j sw l
        else if i ≤ j ∧ ¬lessK key (getE l j) (getE l a) then
          partLoopF (lessK key) a fuel i (j - 1) sw l
        else if i ≤ j then
          partLoopF (lessK key) a fuel (i + 1) (j - 1) true (lswap l i j)
        else (j, sw, l) := rfl
    rw [heq]
    by_cases hc1 : i ≤ j ∧ lessK key (getE l i) (getE l a)
    · rw [if_pos hc1]
      have hlt : key (getE l i) < key pv := by
        have := lessK_eq_true.mp hc1.2
        rwa [hpv] at this
      exact ih (i + 1) j sw l (by omega) (by omega) (by omega) hjb hbl hab hpv
        (fun p h1 h2 => by
          rcases Nat.lt_or_ge p i with hp | hp
          · exact hpre p h1 hp
          · have : p = i := by omega
            subst this
            exact hlt)
        hsuf
    · rw [if_neg hc1]
      by_cases hc2 : i ≤ j ∧ ¬lessK key (getE l j) (getE l a)
      · rw [if_pos hc2]
        have hge : key pv ≤ key (getE l j) := by
          have hf : lessK key (getE l j) (getE l a) = false := by
            cases hcase : lessK key (getE l j) (getE l a)
            · rfl
            · exact absurd hcase hc2.2
          have := lessK_eq_false.mp hf
          rwa [hpv] at this
        have hj1 : 1 ≤ j := by omega
        exact ih i (j - 1) sw l (by omega) hai (by omega) (by omega) hbl hab hpv hpre
          (fun q h1 h2 => by
            rcases Nat.lt_or_ge j q with hq | hq
            · exact hsuf q hq h2
            · have : q = j := by omega
              subst this
              exact hge)
      · rw [if_neg hc2]
        by_cases hc3 : i ≤ j
        · rw [if_pos hc3]
          -- out-of-place pair: l[i] ≥ pv and l[j] < pv, so i ≠ j
          have hnl1 : ¬ lessK key (getE l i) (getE l a) := fun h => hc1 ⟨hc3, h⟩
          have hl2 : lessK key (getE l j) (getE l a) := by
            by_contra h
            exact hc2 ⟨hc3, h⟩
          have hgei : key pv ≤ key (getE l i) := by
            have hf : lessK key (getE l i) (getE l a) = false := by
              cases hcase : lessK key (getE l i) (getE l a)
              · rfl
              · exact absurd hcase hnl1
            have := lessK_eq_false.mp hf
            rwa [hpv] at this
          have hltj : key (getE l j) < key pv := by
            have := lessK_eq_true.mp hl2
            rwa [hpv] at this
          have hij' : i ≠ j := by
            intro h
            subst h
            exact absurd hltj (not_lt.mpr hgei)
          have hil : i < l.length := by omega
          have hjl : j < l.length := by omega
          set m := lswap l i j with hm
          have hmi : getE m i = getE l j := getE_lswap_snd hil hjl
          have hmj : getE m j = getE l i := getE_lswap_fst hil hjl
          have hmo : ∀ k, k ≠ i → k ≠ j → getE m k = getE l k :=
            fun k h1 h2 => getE_lswap_other h1 h2
          have hma : getE m a = pv := by
            rw [hmo a (by omega) (by omega)]
            exact hpv
          have hrec := ih (i + 1) (j - 1) true m (by omega) (by omega) (by omega)
            (by omega) (by rw [hm, length_lswap]; exact hbl) hab hma
            (fun p h1 h2 => by
              rcases Nat.lt_or_ge p i with hp | hp
              · rw [hmo p (by omega) (by omega)]
                exact hpre p h1 hp
              · have : p = i := by omega
                subst this
                rw [hmi]
                exact hltj)
            (fun q h1 h2 => by
              rcases Nat.lt_or_ge j q with hq | hq
              · rw [hmo q (by omega) (by omega)]
                exact hsuf q hq h2
              · have : q = j := by omega
                subst this
                rw [hmj]
                exact hgei)
          refine ⟨?_, hrec.2.1, hrec.2.2.1, hrec.2.2.2.1, hrec.2.2.2.2.1, hrec.2.2.2.2.2⟩
          exact permWithin_trans
            (lswap_permWithin hil hjl (by omega) (by omega) (by omega) (by omega)) hrec.1
        · rw [if_neg hc3]
          refine ⟨permWithin_refl l (a + 1) b, by omega, hjb, hpv, ?_, hsuf⟩
          intro p h1 h2
          exact hpre p h1 (by omega)

/-- `partition_func` partitions the window around the pivot value: the
result separates `[a, mid)` (strictly below) from `(mid, b)` (at or above),
with the pivot value landing at `mid`. -/
theorem partitionF_spec {key : α → β} {l : List α} {a b pivot : Nat}
    (hab : a < b) (hbl : b ≤ l.length) (hp1 : a ≤ pivot) (hp2 : pivot < b) :
    permWithin l (partitionF (lessK key) l a b pivot).2.2 a b ∧
    a ≤ (partitionF (lessK key) l a b pivot).1 ∧
    (partitionF (lessK key) l a b pivot).1 < b ∧
    getE (partitionF (lessK key) l a b pivot).2.2 (partitionF (lessK key) l a b pivot).1 =
      getE l pivot ∧
    (∀ p, a ≤ p → p < (partitionF (lessK key) l a b pivot).1 →
      key (getE (partitionF (lessK key) l a b pivot).2.2 p) < key (getE l pivot)) ∧
    (∀ q, (partitionF (lessK key) l a b pivot).1 < q → q < b →
      key (getE l pivot) ≤ key (getE (partitionF (lessK key) l a b pivot).2.2 q)) := by
  have hal : a < l.length := by omega
  have hpl : pivot < l.length := by omega
  set pv := getE l pivot with hpvdef
  set l1 := lswap l a pivot with hl1
  have hl1a : getE l1 a = pv := getE_lswap_snd hal hpl
  have hperm1 : permWithin l l1 a b :=
    lswap_permWithin hal hpl (le_refl a) hab hp1 hp2
  have hloop := @partLoop_spec α _ β _ key a b pv
    (b + 1) (a + 1) (b - 1) false l1 (by omega) (le_refl _) (by omega) (le_refl _)
    (by rw [hl1, length_lswap]; exact hbl) hab hl1a
    (fun p h1 h2 => by omega)
    (fun q h1 h2 => by omega)
  set r := partLoopF (lessK key) a (b + 1) (a + 1) (b - 1) false l1 with hr
  have hfst : (partitionF (lessK key) l a b pivot).1 = r.1 := rfl
  have hsnd : (partitionF (lessK key) l a b pivot).2.2 = lswap r.2.2 r.1 a := rfl
  rw [hfst, hsnd]
  obtain ⟨hperm2, hmid1, hmid2, hpiv, hleft, hright⟩ := hloop
  have hl2len : r.2.2.length = l.length := by
    rw [hperm2.1, hperm1.1]
  have hmidl : r.1 < r.2.2.length := by omega
  have hal2 : a < r.2.2.length := by omega
  have hswA : getE (lswap r.2.2 r.1 a) r.1 = getE r.2.2 a := getE_lswap_snd hmidl hal2
  have hswB : getE (lswap r.2.2 r.1 a) a = getE r.2.2 r.1 := getE_lswap_fst hmidl hal2
  have hswO : ∀ k, k ≠ r.1 → k ≠ a → getE (lswap r.2.2 r.1 a) k = getE r.2.2 k :=
    fun k h1 h2 => getE_lswap_other h1 h2
  refine ⟨?_, hmid1, by omega, ?_, ?_, ?_⟩
  · refine permWithin_trans hperm1 (permWithin_trans
      (permWithin_mono (by omega) (le_refl b) (by omega) hperm2) ?_)
    exact lswap_permWithin hmidl hal2 hmid1 (by omega) (le_refl a) hab
  · rw [hswA, hpiv]
  · intro p hp1' hp2'
    rcases Nat.eq_or_lt_of_le hp1' with rfl | hpa
    · rw [hswB]
      exact hleft r.1 (by omega) (le_refl _)
    · rw [hswO p (by omega) (by omega)]
      exact hleft p (by omega) (by omega)
  · intro q hq1 hq2
    rw [hswO q (by omega) (by omega)]
    exact hright q hq1 hq2

/-- The partition-equal loop: positions `[a+1, i)` hold keys at or below the
pivot, positions `(j, b)` hold keys strictly above it. -/
theorem partEqLoop_spec {key : α → β} {a b : Nat} {pv : α} :
    ∀ (fuel i j : Nat) (l : List α),
    j + 1 - i < fuel →
    a + 1 ≤ i → i ≤ j + 1 → j ≤ b - 1 → b ≤ l.length → a < b →
    getE l a = pv →
    (∀ p, a + 1 ≤ p → p < i → key (getE l p) ≤ key pv) →
    (∀ q, j < q → q < b → key pv < key (getE l q)) →
    permWithin l (partEqLoopF (lessK key) a fuel i j l).2 (a + 1) b ∧
    a + 1 ≤ (partEqLoopF (lessK key) a fuel i j l).1 ∧
    (partEqLoopF (lessK key) a fuel i j l).1 ≤ b ∧
    getE (partEqLoopF (lessK key) a fuel i j l).2 a = pv ∧
    (∀ p, a + 1 ≤ p → p < (partEqLoopF (lessK key) a fuel i j l).1 →
      key (getE (partEqLoopF (lessK key) a fuel i j l).2 p) ≤ key pv) ∧
    (∀ q, (partEqLoopF (lessK key) a fuel i j l).1 ≤ q → q < b →
      key pv < key (getE (partEqLoopF (lessK key) a fuel i j l).2 q)) := by
  intro fuel
  induction fuel with
  | zero =>
    intro i j l hfuel
    omega
  | succ fuel ih =>
    intro i j l hfuel hai hij hjb hbl hab hpv hpre hsuf
    have heq : partEqLoopF (lessK key) a (fuel + 1) i j l =
        if i ≤ j ∧ ¬lessK key (getE l a) (getE l i) then
          partEqLoopF (lessK key) a fuel (i + 1) j l
        else if i ≤ j ∧ lessK key (getE l a) (getE l j) then
          partEqLoopF (lessK key) a fuel i (j - 1) l
        else if i ≤ j then
          partEqLoopF (lessK key) a fuel (i + 1) (j - 1) (lswap l i j)
        else (i, l) := rfl
    rw [heq]
    by_cases hc1 : i ≤ j ∧ ¬lessK key (getE l a) (getE l i)
    · rw [if_pos hc1]
      have hle : key (getE l i) ≤ key pv := by
        have hf : lessK key (getE l a) (getE l i) = false := by
          cases hcase : lessK key (getE l a) (getE l i)
          · rfl
          · exact absurd hcase hc1.2
        have := lessK_eq_false.mp hf
        rwa [hpv] at this
      exact ih (i + 1) j l (by omega) (by omega) (by omega) hjb hbl hab hpv
        (fun p h1 h2 => by
          rcases Nat.lt_or_ge p i with hp | hp
          · exact hpre p h1 hp
          · have : p = i := by omega
            subst this
            exact hle)
        hsuf
    · rw [if_neg hc1]
      by_cases hc2 : i ≤ j ∧ lessK key (getE l a) (getE l j)
      · rw [if_pos hc2]
        have hgt : key pv < key (getE l j) := by
          have := lessK_eq_true.mp hc2.2
          rwa [hpv] at this
        have hj1 : 1 ≤ j := by omega
        exact ih i (j - 1) l (by omega) hai (by omega) (by omega) hbl hab hpv hpre
          (fun q h1 h2 => by
            rcases Nat.lt_or_ge j q with hq | hq
            · exact hsuf q hq h2
            · have : q = j := by omega
              subst this
              exact hgt)
      · rw [if_neg hc2]
        by_cases hc3 : i ≤ j
        · rw [if_pos hc3]
          have hgti : key pv < key (getE l i) := by
            have ht : lessK key (getE l a) (getE l i) = true := by
              cases hcase : lessK key (getE l a) (getE l i)
              · exact absurd ⟨hc3, by rw [hcase]; exact Bool.false_ne_true⟩ hc1
              · rfl
            have := lessK_eq_true.mp ht
            rwa [hpv] at this
          have hlej : key (getE l j) ≤ key pv := by
            have hf : lessK key (getE l a) (getE l j) = false := by
              cases hcase : lessK key (getE l a) (getE l j)
              · rfl
              · exact absurd ⟨hc3, hcase⟩ hc2
            have := lessK_eq_false.mp hf
            rwa [hpv] at this
          have hij' : i ≠ j := by
            intro h
            subst h
            exact absurd hgti (not_lt.mpr hlej)
          have hil : i < l.length := by omega
          have hjl : j < l.length := by omega
          set m := lswap l i j with hm
          have hmi : getE m i = getE l j := getE_lswap_snd hil hjl
          have hmj : getE m j = getE l i := getE_lswap_fst hil hjl
          have hmo : ∀ k, k ≠ i → k ≠ j → getE m k = getE l k :=
            fun k h1 h2 => getE_lswap_other h1 h2
          have hma : getE m a = pv := by
            rw [hmo a (by omega) (by omega)]
            exact hpv
          have hrec := ih (i + 1) (j - 1) m (by omega) (by omega) (by omega)
            (by omega) (by rw [hm, length_lswap]; exact hbl) hab hma
            (fun p h1 h2 => by
              rcases Nat.lt_or_ge p i with hp | hp
              · rw [hmo p (by omega) (by omega)]
                exact hpre p h1 hp
              · have : p = i := by omega
                subst this
                rw [hmi]
                exact hlej)
            (fun q h1 h2 => by
              rcases Nat.lt_or_ge j q with hq | hq
              · rw [hmo q (by omega) (by omega)]
                exact hsuf q hq h2
              · have : q = j := by omega
                subst this
                rw [hmj]
                exact hgti)
          refine ⟨?_, hrec.2.1, hrec.2.2.1, hrec.2.2.2.1, hrec.2.2.2.2.1, hrec.2.2.2.2.2⟩
          exact permWithin_trans
            (lswap_permWithin hil hjl (by omega) (by omega) (by omega) (by omega)) hrec.1
        · rw [if_neg hc3]
          refine ⟨permWithin_refl l (a + 1) b, hai, by omega, hpv, ?_, ?_⟩
          · intro p h1 h2
            exact hpre p h1 h2
          · intro q h1 h2
            exact hsuf q (by omega) h2

/-- `partitionEqual_func`: the window splits into a non-empty prefix of keys
at or below the pivot and a suffix of keys strictly above it. -/
theorem partitionEqualF_spec {key : α → β} {l : List α} {a b pivot : Nat}
    (hab : a < b) (hbl : b ≤ l.length) (hp1 : a ≤ pivot) (hp2 : pivot < b) :
    permWithin l (partitionEqualF (lessK key) l a b pivot).2 a b ∧
    a + 1 ≤ (partitionEqualF (lessK key) l a b pivot).1 ∧
    (partitionEqualF (lessK key) l a b pivot).1 ≤ b ∧
    (∀ p, a ≤ p → p < (partitionEqualF (lessK key) l a b pivot).1 →
      key (getE (partitionEqualF (lessK key) l a b pivot).2 p) ≤ key (getE l pivot)) ∧
    (∀ q, (partitionEqualF (lessK key) l a b pivot).1 ≤ q → q < b →
      key (getE l pivot) < key (getE (partitionEqualF (lessK key) l a b pivot).2 q)) := by
  have hal : a < l.length := by omega
  have hpl : pivot < l.length := by omega
  set pv := getE l pivot with hpvdef
  set l1 := lswap l a pivot with hl1
  have hl1a : getE l1 a = pv := getE_lswap_snd hal hpl
  have hperm1 : permWithin l l1 a b :=
    lswap_permWithin hal hpl (le_refl a) hab hp1 hp2
  have hloop := @partEqLoop_spec α _ β _ key a b pv
    (b + 1) (a + 1) (b - 1) l1 (by omega) (le_refl _) (by omega) (le_refl _)
    (by rw [hl1, length_lswap]; exact hbl) hab hl1a
    (fun p h1 h2 => by omega)
    (fun q h1 h2 => by omega)
  set r := partEqLoopF (lessK key) a (b + 1) (a + 1) (b - 1) l1 with hr
  have hfst : (partitionEqualF (lessK key) l a b pivot).1 = r.1 := rfl
  have hsnd : (partitionEqualF (lessK key) l a b pivot).2 = r.2 := rfl
  rw [hfst, hsnd]
  obtain ⟨hperm2, hmid1, hmid2, hpiv, hleft, hright⟩ := hloop
  refine ⟨?_, hmid1, hmid2, ?_, hright⟩
  · exact permWithin_trans hperm1
      (permWithin_mono (by omega) (le_refl b) (by omega) hperm2)
  · intro p hpa hpm
    rcases Nat.eq_or_lt_of_le hpa with rfl | hpa'
    · rw [hpiv]
    · exact hleft p (by omega) hpm

/-- Adjacent order on a window implies the window is sorted. -/
theorem sortedRange_of_adjacent {key : α → β} {l : List α} {lo hi : Nat}
    (h : ∀ k, lo ≤ k → k + 1 < hi → key (getE l k) ≤ key (getE l (k + 1))) :
    sortedRange key l lo hi := by
  intro i j h1 h2 h3
  induction j with
  | zero =>
    have : i = 0 := by omega
    subst this
    exact le_refl _
  | succ j ih =>
    rcases Nat.eq_or_lt_of_le h2 with rfl | hlt
    · exact le_refl _
    · exact (ih (by omega) (by omega)).trans (h j (by omega) h3)

/-- The fence below a window: the element just before `a` bounds every
window element from below (vacuous when `a = 0`). -/
def fenced (key : α → β) (l : List α) (a b : Nat) : Prop :=
  0 < a → ∀ q, a ≤ q → q < b → key (getE l (a - 1)) ≤ key (getE l q)

theorem fenced_of_permWithin {key : α → β} {l l' : List α} {a b : Nat}
    (hp : permWithin l l' a b) (hf : fenced key l a b) : fenced key l' a b := by
  intro ha q h1 h2
  have hfix : getE l' (a - 1) = getE l (a - 1) := hp.2.1 (a - 1) (Or.inl (by omega))
  rw [hfix]
  exact forall_getE_of_permWithin hp (fun x => key (getE l (a - 1)) ≤ key x)
    (fun k hk1 hk2 => hf ha k hk1 hk2) q h1 h2

/-- `reverseRange_func`'s loop permutes within the window. -/
theorem revGo_spec {a b : Nat} :
    ∀ (fuel i j : Nat) (l : List α), a ≤ i → j < b → b ≤ l.length →
    permWithin l (revGo fuel i j l) a b := by
  intro fuel
  induction fuel with
  | zero => intro i j l _ _ _; exact permWithin_refl l a b
  | succ fuel ih =>
    intro i j l hai hjb hbl
    show permWithin l (if i < j then revGo fuel (i + 1) (j - 1) (lswap l i j) else l) a b
    by_cases hij : i < j
    · rw [if_pos hij]
      have hs : permWithin l (lswap l i j) a b :=
        lswap_permWithin (by omega) (by omega) hai (by omega) (by omega) hjb
      exact permWithin_trans hs (ih (i + 1) (j - 1) (lswap l i j) (by omega) (by omega)
        (by rw [length_lswap]; exact hbl))
    · rw [if_neg hij]
      exact permWithin_refl l a b

theorem reverseRangeF_spec {l : List α} {a b : Nat} (hab : a < b) (hbl : b ≤ l.length) :
    permWithin l (reverseRangeF l a b) a b :=
  revGo_spec b a (b - 1) l (le_refl a) (by omega) hbl

/-- The rightward shift loop permutes within `[lo, b)`. -/
theorem shiftRight_spec {key : α → β} {b lo : Nat} :
    ∀ (fuel j : Nat) (l : List α), lo + 1 ≤ j → b ≤ l.length →
    permWithin l (shiftRightL (lessK key) b fuel j l) lo b := by
  intro fuel
  induction fuel with
  | zero => intro j l _ _; exact permWithin_refl l lo b
  | succ fuel ih =>
    intro j l hj hbl
    show permWithin l (if j < b ∧ lessK key (getE l j) (getE l (j - 1)) then
      shiftRightL (lessK key) b fuel (j + 1) (lswap l (j - 1) j) else l) lo b
    by_cases hc : j < b ∧ lessK key (getE l j) (getE l (j - 1))
    · rw [if_pos hc]
      have hs : permWithin l (lswap l (j - 1) j) lo b :=
        lswap_permWithin (by omega) (by omega) (by omega) (by omega) (by omega) hc.1
      exact permWithin_trans hs (ih (j + 1) _ (by omega)
        (by rw [length_lswap]; exact hbl))
    · rw [if_neg hc]
      exact permWithin_refl l lo b

/-- The rightward shift loop never touches positions below `lo`. -/
theorem shiftRight_eq_below {key : α → β} {b lo : Nat} :
    ∀ (fuel j : Nat) (l : List α) (k : Nat), lo + 1 ≤ j → k < lo →
    getE (shiftRightL (lessK key) b fuel j l) k = getE l k := by
  intro fuel
  induction fuel with
  | zero => intro j l k _ _; rfl
  | succ fuel ih =>
    intro j l k hj hk
    show getE (if j < b ∧ lessK key (getE l j) (getE l (j - 1)) then
      shiftRightL (lessK key) b fuel (j + 1) (lswap l (j - 1) j) else l) k = getE l k
    by_cases hc : j < b ∧ lessK key (getE l j) (getE l (j - 1))
    · rw [if_pos hc, ih (j + 1) _ k (by omega) hk]
      exact getE_lswap_other (by omega) (by omega)
    · rw [if_neg hc]

/-- The scan of `partialInsertionSort_func`: lands between `i` and `b`, with
every newly scanned adjacent pair in order and, short of `b`, an inversion
at the landing point. -/
theorem advanceI_spec {key : α → β} {b : Nat} :
    ∀ (fuel i : Nat) (l : List α), i ≤ b → b - i ≤ fuel →
    i ≤ advanceI (lessK key) b fuel i l ∧
    advanceI (lessK key) b fuel i l ≤ b ∧
    (∀ k, i ≤ k → k < advanceI (lessK key) b fuel i l →
      key (getE l (k - 1)) ≤ key (getE l k)) ∧
    (advanceI (lessK key) b fuel i l < b →
      key (getE l (advanceI (lessK key) b fuel i l)) <
        key (getE l (advanceI (lessK key) b fuel i l - 1))) := by
  intro fuel
  induction fuel with
  | zero =>
    intro i l hib hfuel
    have heq0 : advanceI (lessK key) b 0 i l = i := rfl
    rw [heq0]
    exact ⟨le_refl _, hib, fun k h1 h2 => by omega, fun h => by omega⟩
  | succ fuel ih =>
    intro i l hib hfuel
    have heq : advanceI (lessK key) b (fuel + 1) i l =
        (if i < b ∧ ¬lessK key (getE l i) (getE l (i - 1)) then
          advanceI (lessK key) b fuel (i + 1) l else i) := rfl
    rw [heq]
    by_cases hc : i < b ∧ ¬lessK key (getE l i) (getE l (i - 1))
    · rw [if_pos hc]
      have hadj : key (getE l (i - 1)) ≤ key (getE l i) := by
        have hf : lessK key (getE l i) (getE l (i - 1)) = false := by
          cases hcase : lessK key (getE l i) (getE l (i - 1))
          · rfl
          · exact absurd hcase hc.2
        exact lessK_eq_false.mp hf
      obtain ⟨h1, h2, h3, h4⟩ := ih (i + 1) l (by omega) (by omega)
      refine ⟨by omega, h2, ?_, h4⟩
      intro k hk1 hk2
      rcases Nat.eq_or_lt_of_le hk1 with rfl | hki
      · exact hadj
      · exact h3 k (by omega) hk2
    · rw [if_neg hc]
      refine ⟨le_refl _, hib, fun k h1 h2 => by omega, ?_⟩
      intro hlt
      have ht : lessK key (getE l i) (getE l (i - 1)) = true := by
        cases hcase : lessK key (getE l i) (getE l (i - 1))
        · exact absurd ⟨hlt, by rw [hcase]; exact Bool.false_ne_true⟩ hc
        · rfl
      exact lessK_eq_true.mp ht

/-- The leftward shift loop is exactly the insertion sift: starting at the
moving element's position `c` it restores sortedness of `[a, T+1)`.  The
fence hypothesis is what stops the Go loop (whose only hard stop is `j ≥ 1`)
from crossing below `a`. -/
theorem shiftLeft_spec {key : α → β} {a T : Nat} :
    ∀ (c : Nat) (l : List α), c ≤ T → T < l.length → a ≤ c →
    (0 < a → ∀ q, a ≤ q → q ≤ T → key (getE l (a - 1)) ≤ key (getE l q)) →
    insInv key l a c T →
    sortedRange key (shiftLeftL (lessK key) c l) a (T + 1) ∧
    permWithin l (shiftLeftL (lessK key) c l) a (T + 1) := by
  intro c
  induction c with
  | zero =>
    intro l _ _ hac _ hinv
    refine ⟨?_, permWithin_refl l a (T + 1)⟩
    show sortedRange key l a (T + 1)
    exact sortedRange_mono (Nat.zero_le a) (le_refl _) hinv.2.1
  | succ j ih =>
    intro l hcT hTl hac hfen hinv
    have heq : shiftLeftL (lessK key) (j + 1) l =
        if lessK key (getE l (j + 1)) (getE l j) then
          shiftLeftL (lessK key) j (lswap l j (j + 1))
        else l := rfl
    rw [heq]
    by_cases hc : lessK key (getE l (j + 1)) (getE l j) = true
    · rw [if_pos hc]
      have hlt : key (getE l (j + 1)) < key (getE l j) := lessK_eq_true.mp hc
      -- the fence rules out `a = j + 1`
      have haj : a ≤ j := by
        rcases Nat.eq_or_lt_of_le hac with haeq | hlt2
        · exfalso
          have hge : key (getE l (a - 1)) ≤ key (getE l a) :=
            hfen (by omega) a (le_refl a) (by omega)
          have ha1 : a - 1 = j := by omega
          have ha2 : a = j + 1 := by omega
          rw [ha1, ha2] at hge
          exact absurd hlt (not_lt.mpr hge)
        · omega
      have hjl : j < l.length := by omega
      have hj1l : j + 1 < l.length := by omega
      set m := lswap l j (j + 1) with hm
      have hmj : getE m j = getE l (j + 1) := getE_lswap_snd hjl hj1l
      have hmj1 : getE m (j + 1) = getE l j := getE_lswap_fst hjl hj1l
      have hmo : ∀ k, k ≠ j → k ≠ j + 1 → getE m k = getE l k :=
        fun k h1 h2 => getE_lswap_other h1 h2
      have hinv' : insInv key m a j T := by
        refine ⟨?_, ?_, ?_⟩
        · intro p q h1 h2 h3
          rw [hmo p (by omega) (by omega), hmo q (by omega) (by omega)]
          exact hinv.1 p q h1 h2 (by omega)
        · intro p q h1 h2 h3
          rcases Nat.eq_or_lt_of_le h1 with rfl | hpj
          · rcases Nat.eq_or_lt_of_le h2 with rfl | hq
            · exact le_refl _
            · rcases Nat.eq_or_lt_of_le (Nat.succ_le_of_lt hq) with hq1 | hq2
              · rw [hmj, ← hq1, hmj1]
                exact le_of_lt hlt
              · rw [hmj, hmo q (by omega) (by omega)]
                exact hinv.2.1 (j + 1) q (le_refl _) (by omega) h3
          · rcases Nat.eq_or_lt_of_le (Nat.succ_le_of_lt hpj) with hp1 | hp2
            · rcases Nat.eq_or_lt_of_le h2 with rfl | hq
              · exact le_refl _
              · rw [← hp1, hmj1, hmo q (by omega) (by omega)]
                exact hinv.2.2 j q haj (by omega) (by omega) (by omega)
            · rw [hmo p (by omega) (by omega), hmo q (by omega) (by omega)]
              exact hinv.2.1 p q (by omega) h2 h3
        · intro p q h1 h2 h3 h4
          rw [hmo p (by omega) (by omega)]
          rcases Nat.eq_or_lt_of_le (Nat.succ_le_of_lt h3) with hq1 | hq2
          · rw [← hq1, hmj1]
            exact hinv.1 p j h1 (by omega) (by omega)
          · rw [hmo q (by omega) (by omega)]
            exact hinv.2.2 p q h1 (by omega) (by omega) h4
      have hfen' : 0 < a → ∀ q, a ≤ q → q ≤ T →
          key (getE m (a - 1)) ≤ key (getE m q) := by
        intro ha q h1 h2
        rw [hmo (a - 1) (by omega) (by omega)]
        by_cases hq1 : q = j
        · rw [hq1, hmj]
          exact hfen ha (j + 1) (by omega) (by omega)
        · by_cases hq2 : q = j + 1
          · rw [hq2, hmj1]
            exact hfen ha j (by omega) (by omega)
          · rw [hmo q hq1 hq2]
            exact hfen ha q h1 h2
      have hrec := ih m (by omega) (by rw [hm, length_lswap]; exact hTl) haj hfen' hinv'
      refine ⟨hrec.1, ?_⟩
      have hswap : permWithin l m a (T + 1) :=
        lswap_permWithin hjl hj1l haj (by omega) (by omega) (by omega)
      exact permWithin_trans hswap hrec.2
    · rw [if_neg hc]
      refine ⟨?_, permWithin_refl l a (T + 1)⟩
      intro p q h1 h2 h3
      by_cases haj : a ≤ j
      · have hle : key (getE l j) ≤ key (getE l (j + 1)) := by
          rcases Bool.eq_false_or_eq_true (lessK key (getE l (j + 1)) (getE l j)) with ht | hf
          · exact absurd ht hc
          · exact lessK_eq_false.mp hf
        rcases Nat.lt_or_ge q (j + 1) with hq | hq
        · exact hinv.1 p q h1 h2 hq
        · rcases Nat.lt_or_ge p (j + 1) with hp | hp
          · have hpj : key (getE l p) ≤ key (getE l j) :=
              hinv.1 p j h1 (by omega) (by omega)
            rcases Nat.eq_or_lt_of_le hq with hq1 | hq2
            · rw [← hq1]
              exact hpj.trans hle
            · calc key (getE l p) ≤ key (getE l j) := hpj
                _ ≤ key (getE l (j + 1)) := hle
                _ ≤ key (getE l q) := hinv.2.1 (j + 1) q (by omega) (by omega) h3
          · exact hinv.2.1 p q (by omega) h2 h3
      · exact hinv.2.1 p q (by omega) h2 h3

/-- The swap-and-left-shift half of a repair step keeps the prefix `[a, i)`
in adjacent order and permutes only the window. -/
theorem tryInsL2_spec {key : α → β} {a b i : Nat} {l : List α}
    (hai : a + 1 ≤ i) (hib : i < b) (hbl : b ≤ l.length)
    (hfen : fenced key l a b)
    (hadj : ∀ k, a ≤ k → k + 1 < i → key (getE l k) ≤ key (getE l (k + 1)))
    (hltv : key (getE l i) < key (getE l (i - 1))) :
    (∀ k, a ≤ k → k + 1 < i →
      key (getE (tryInsL2 (lessK key) a i l) k) ≤
        key (getE (tryInsL2 (lessK key) a i l) (k + 1))) ∧
    permWithin l (tryInsL2 (lessK key) a i l) a b := by
  have hi1l : i - 1 < l.length := by omega
  have hil : i < l.length := by omega
  have heq : tryInsL2 (lessK key) a i l =
      if 2 ≤ i - a then shiftLeftL (lessK key) (i - 1) (lswap l (i - 1) i)
      else lswap l (i - 1) i := rfl
  rw [heq]
  have hperm1 : permWithin l (lswap l (i - 1) i) a b :=
    lswap_permWithin hi1l hil (by omega) (by omega) (by omega) hib
  by_cases h2a : 2 ≤ i - a
  · rw [if_pos h2a]
    have hsl : sortedRange key l a i := sortedRange_of_adjacent hadj
    have hm1a : getE (lswap l (i - 1) i) (i - 1) = getE l i := getE_lswap_snd hi1l hil
    have hm1b : getE (lswap l (i - 1) i) i = getE l (i - 1) := getE_lswap_fst hi1l hil
    have hm1o : ∀ k, k ≠ i - 1 → k ≠ i → getE (lswap l (i - 1) i) k = getE l k :=
      fun k h1 h2 => getE_lswap_other h1 h2
    have hsh := shiftLeft_spec (a := a) (T := i) (i - 1) (lswap l (i - 1) i)
      (by omega) (by rw [length_lswap]; omega) (by omega)
      (by
        intro ha q h1 h2
        rw [hm1o (a - 1) (by omega) (by omega)]
        by_cases hq1 : q = i - 1
        · rw [hq1, hm1a]
          exact hfen ha i (by omega) hib
        · by_cases hq2 : q = i
          · rw [hq2, hm1b]
            exact hfen ha (i - 1) (by omega) (by omega)
          · rw [hm1o q hq1 hq2]
            exact hfen ha q h1 (by omega))
      (by
        refine ⟨?_, ?_, ?_⟩
        · intro p q h1 h2 h3
          rw [hm1o p (by omega) (by omega), hm1o q (by omega) (by omega)]
          exact hsl p q h1 h2 (by omega)
        · intro p q h1 h2 h3
          rcases Nat.eq_or_lt_of_le h2 with rfl | hpq
          · exact le_refl _
          · have hp : p = i - 1 := by omega
            have hq : q = i := by omega
            rw [hp, hq, hm1a, hm1b]
            exact le_of_lt hltv
        · intro p q h1 h2 h3 h4
          have hq : q = i := by omega
          rw [hq, hm1o p (by omega) (by omega), hm1b]
          exact hsl p (i - 1) h1 (by omega) (by omega))
    refine ⟨?_, ?_⟩
    · intro k hk1 hk2
      exact hsh.1 k (k + 1) hk1 (by omega) (by omega)
    · exact permWithin_trans hperm1
        (permWithin_mono (le_refl a) (by omega) (by omega) hsh.2)
  · rw [if_neg h2a]
    exact ⟨fun k hk1 hk2 => by omega, hperm1⟩

/-- One full repair step of `tryInsLoop` keeps the prefix `[a, i)` in
adjacent order and permutes only the window. -/
theorem tryInsStep_spec {key : α → β} {a b i : Nat} {l : List α}
    (hai : a + 1 ≤ i) (hib : i < b) (hbl : b ≤ l.length)
    (hfen : fenced key l a b)
    (hadj : ∀ k, a ≤ k → k + 1 < i → key (getE l k) ≤ key (getE l (k + 1)))
    (hltv : key (getE l i) < key (getE l (i - 1))) :
    (∀ k, a ≤ k → k + 1 < i →
      key (getE (tryInsStep (lessK key) a b i l) k) ≤
        key (getE (tryInsStep (lessK key) a b i l) (k + 1))) ∧
    permWithin l (tryInsStep (lessK key) a b i l) a b := by
  obtain ⟨hadj2, hperm2⟩ := tryInsL2_spec hai hib hbl hfen hadj hltv
  have heq : tryInsStep (lessK key) a b i l =
      if 2 ≤ b - i then
        shiftRightL (lessK key) b (b - (i + 1)) (i + 1) (tryInsL2 (lessK key) a i l)
      else tryInsL2 (lessK key) a i l := rfl
  rw [heq]
  by_cases hbi : 2 ≤ b - i
  · rw [if_pos hbi]
    have hperm3 : permWithin (tryInsL2 (lessK key) a i l)
        (shiftRightL (lessK key) b (b - (i + 1)) (i + 1) (tryInsL2 (lessK key) a i l)) i b :=
      shiftRight_spec (b - (i + 1)) (i + 1) _ (by omega) (by rw [hperm2.1]; exact hbl)
    refine ⟨?_, ?_⟩
    · intro k hk1 hk2
      rw [@shiftRight_eq_below α _ β _ key b i (b - (i + 1)) (i + 1) _ k
            (by omega) (by omega),
          @shiftRight_eq_below α _ β _ key b i (b - (i + 1)) (i + 1) _ (k + 1)
            (by omega) (by omega)]
      exact hadj2 k hk1 hk2
    · exact permWithin_trans hperm2
        (permWithin_mono (show a ≤ i by omega) (le_refl b) (by omega) hperm3)
  · rw [if_neg hbi]
    exact ⟨hadj2, hperm2⟩

theorem tryInsLoop_succ (less : α → α → Bool) (a b step i : Nat) (l : List α) :
    tryInsLoop less a b (step + 1) i l =
      if advanceI less b (b - i) i l = b then (true, l)
      else if b - a < 50 then (false, l)
      else tryInsLoop less a b step (advanceI less b (b - i) i l)
        (tryInsStep less a b (advanceI less b (b - i) i l) l) := rfl

/-- The `maxSteps` loop: a `true` result leaves the window sorted, and in
all cases only the window is permuted. -/
theorem tryInsLoop_spec {key : α → β} {a b : Nat} :
    ∀ (step i : Nat) (l : List α), a + 1 ≤ i → i ≤ b → b ≤ l.length →
    fenced key l a b →
    (∀ k, a ≤ k → k + 1 < i → key (getE l k) ≤ key (getE l (k + 1))) →
    ((tryInsLoop (lessK key) a b step i l).1 = true →
      sortedRange key (tryInsLoop (lessK key) a b step i l).2 a b) ∧
    permWithin l (tryInsLoop (lessK key) a b step i l).2 a b := by
  intro step
  induction step with
  | zero =>
    intro i l _ _ _ _ _
    exact ⟨fun h => absurd h Bool.false_ne_true, permWithin_refl l a b⟩
  | succ step ih =>
    intro i l hai hib hbl hfen hadj
    rw [tryInsLoop_succ]
    obtain ⟨h1, h2, h3, h4⟩ := @advanceI_spec α _ β _ key b (b - i) i l hib (le_refl _)
    have hadj' : ∀ k, a ≤ k → k + 1 < advanceI (lessK key) b (b - i) i l →
        key (getE l k) ≤ key (getE l (k + 1)) := by
      intro k hk1 hk2
      rcases Nat.lt_or_ge (k + 1) i with hlt | hge
      · exact hadj k hk1 hlt
      · exact h3 (k + 1) hge hk2
    by_cases hcb : advanceI (lessK key) b (b - i) i l = b
    · rw [if_pos hcb]
      refine ⟨fun _ => ?_, permWithin_refl l a b⟩
      show sortedRange key l a b
      exact sortedRange_of_adjacent (fun k hk1 hk2 => hadj' k hk1 (by omega))
    · rw [if_neg hcb]
      by_cases hc50 : b - a < 50
      · rw [if_pos hc50]
        exact ⟨fun h => absurd h Bool.false_ne_true, permWithin_refl l a b⟩
      · rw [if_neg hc50]
        have hib' : advanceI (lessK key) b (b - i) i l < b := by omega
        have hia' : a + 1 ≤ advanceI (lessK key) b (b - i) i l := by omega
        obtain ⟨hadjS, hpermS⟩ := tryInsStep_spec hia' hib' hbl hfen hadj' (h4 hib')
        have hrec := ih (advanceI (lessK key) b (b - i) i l)
          (tryInsStep (lessK key) a b (advanceI (lessK key) b (b - i) i l) l)
          hia' (by omega) (by rw [hpermS.1]; exact hbl)
          (fenced_of_permWithin hpermS hfen) hadjS
        exact ⟨hrec.1, permWithin_trans hpermS hrec.2⟩

/-- `partialInsertionSort_func`: a `true` result means the window got fully
sorted; whatever the result, only the window is permuted.  The fence
hypothesis reflects pdqsort's invariant that `data[a-1]` (when `a > 0`) is a
lower bound for the window. -/
theorem pdqTryInsSort_spec {key : α → β} {a b : Nat} {l : List α}
    (hab : a < b) (hbl : b ≤ l.length) (hfen : fenced key l a b) :
    ((pdqTryInsSort (lessK key) l a b).1 = true →
      sortedRange key (pdqTryInsSort (lessK key) l a b).2 a b) ∧
    permWithin l (pdqTryInsSort (lessK key) l a b).2 a b :=
  tryInsLoop_spec 5 (a + 1) l (le_refl _) hab hbl hfen (fun k hk1 hk2 => by omega)

theorem bitsLenAux_zero : ∀ fuel, bitsLenAux fuel 0 = 0 := by
  intro fuel
  cases fuel with
  | zero => rfl
  | succ fuel => rfl

/-- `bits.Len(n)` brackets `n`: `n < 2^len ≤ 2n` for positive `n`. -/
theorem bitsLenAux_bound : ∀ (fuel n : Nat), 1 ≤ n → n ≤ fuel →
    n < 2 ^ bitsLenAux fuel n ∧ 2 ^ bitsLenAux fuel n ≤ 2 * n := by
  intro fuel
  induction fuel with
  | zero => intro n h1 h2; omega
  | succ fuel ih =>
    intro n h1 h2
    have heq : bitsLenAux (fuel + 1) n =
        if n = 0 then 0 else bitsLenAux fuel (n / 2) + 1 := rfl
    rw [heq, if_neg (by omega)]
    rcases Nat.lt_or_ge n 2 with hn | hn
    · have hn1 : n = 1 := by omega
      subst hn1
      rw [show (1 : Nat) / 2 = 0 from rfl, bitsLenAux_zero]
      exact ⟨by omega, by omega⟩
    · obtain ⟨ihl, ihr⟩ := ih (n / 2) (by omega) (by omega)
      rw [pow_succ]
      omega

theorem bitsLen_bound {n : Nat} (h : 1 ≤ n) :
    n < 2 ^ bitsLen n ∧ 2 ^ bitsLen n ≤ 2 * n :=
  bitsLenAux_bound n n h (le_refl n)

theorem bpPick_lt {length modulus : Nat} (h1 : length < modulus)
    (h2 : modulus ≤ 2 * length) (r : Nat) : bpPick length modulus r < length := by
  have hmod : r % modulus < modulus := Nat.mod_lt r (by omega)
  unfold bpPick
  by_cases hc : length ≤ r % modulus
  · rw [if_pos hc]; omega
  · rw [if_neg hc]; omega

/-- `breakPatterns_func` permutes within the window. -/
theorem breakPatternsF_spec {l : List α} {a b : Nat} (hbl : b ≤ l.length) :
    permWithin l (breakPatternsF l a b) a b := by
  have heq : breakPatternsF l a b =
      if 8 ≤ b - a then
        lswap
          (lswap
            (lswap l (a + (b - a) / 4 * 2 - 1 - 1)
              (a + bpPick (b - a) (nextPowerOfTwo (b - a)) (xorshiftNext (b - a))))
            (a + (b - a) / 4 * 2 - 1)
            (a + bpPick (b - a) (nextPowerOfTwo (b - a))
              (xorshiftNext (xorshiftNext (b - a)))))
          (a + (b - a) / 4 * 2 - 1 + 1)
          (a + bpPick (b - a) (nextPowerOfTwo (b - a))
            (xorshiftNext (xorshiftNext (xorshiftNext (b - a)))))
      else l := rfl
  rw [heq]
  by_cases h8 : 8 ≤ b - a
  · rw [if_pos h8]
    have hbb := bitsLen_bound (n := b - a) (by omega)
    have hnp : nextPowerOfTwo (b - a) = 2 ^ bitsLen (b - a) := rfl
    have hp1 : bpPick (b - a) (nextPowerOfTwo (b - a)) (xorshiftNext (b - a)) < b - a := by
      rw [hnp]; exact bpPick_lt hbb.1 hbb.2 _
    have hp2 : bpPick (b - a) (nextPowerOfTwo (b - a))
        (xorshiftNext (xorshiftNext (b - a))) < b - a := by
      rw [hnp]; exact bpPick_lt hbb.1 hbb.2 _
    have hp3 : bpPick (b - a) (nextPowerOfTwo (b - a))
        (xorshiftNext (xorshiftNext (xorshiftNext (b - a)))) < b - a := by
      rw [hnp]; exact bpPick_lt hbb.1 hbb.2 _
    have hq : (b - a) / 4 * 2 ≤ (b - a) / 2 * 2 := by omega
    have hw1 := @lswap_permWithin α _ l (a + (b - a) / 4 * 2 - 1 - 1)
      (a + bpPick (b - a) (nextPowerOfTwo (b - a)) (xorshiftNext (b - a))) a b
      (by omega) (by omega) (by omega) (by omega) (by omega) (by omega)
    have hw2 := @lswap_permWithin α _
      (lswap l (a + (b - a) / 4 * 2 - 1 - 1)
        (a + bpPick (b - a) (nextPowerOfTwo (b - a)) (xorshiftNext (b - a))))
      (a + (b - a) / 4 * 2 - 1)
      (a + bpPick (b - a) (nextPowerOfTwo (b - a))
        (xorshiftNext (xorshiftNext (b - a)))) a b
      (by rw [length_lswap]; omega) (by rw [length_lswap]; omega)
      (by omega) (by omega) (by omega) (by omega)
    have hw3 := @lswap_permWithin α _
      (lswap
        (lswap l (a + (b - a) / 4 * 2 - 1 - 1)
          (a + bpPick (b - a) (nextPowerOfTwo (b - a)) (xorshiftNext (b - a))))
        (a + (b - a) / 4 * 2 - 1)
        (a + bpPick (b - a) (nextPowerOfTwo (b - a))
          (xorshiftNext (xorshiftNext (b - a)))))
      (a + (b - a) / 4 * 2 - 1 + 1)
      (a + bpPick (b - a) (nextPowerOfTwo (b - a))
        (xorshiftNext (xorshiftNext (xorshiftNext (b - a))))) a b
      (by rw [length_lswap, length_lswap]; omega)
      (by rw [length_lswap, length_lswap]; omega)
      (by omega) (by omega) (by omega) (by omega)
    exact permWithin_trans hw1 (permWithin_trans hw2 hw3)
  · rw [if_neg h8]
    exact permWithin_refl l a b

theorem order2_fst {less : α → α → Bool} {l : List α} (x y s : Nat) :
    (order2 less l x y s).1 = x ∨ (order2 less l x y s).1 = y := by
  unfold order2
  by_cases h : less (getE l y) (getE l x) = true
  · rw [if_pos h]; exact Or.inr rfl
  · rw [if_neg h]; exact Or.inl rfl

theorem order2_snd {less : α → α → Bool} {l : List α} (x y s : Nat) :
    (order2 less l x y s).2.1 = x ∨ (order2 less l x y s).2.1 = y := by
  unfold order2
  by_cases h : less (getE l y) (getE l x) = true
  · rw [if_pos h]; exact Or.inl rfl
  · rw [if_neg h]; exact Or.inr rfl

/-- `median_func` returns one of its three candidate indices. -/
theorem medianOf_mem {less : α → α → Bool} {l : List α} (x y z s : Nat) :
    (medianOf less l x y z s).1 = x ∨ (medianOf less l x y z s).1 = y ∨
    (medianOf less l x y z s).1 = z := by
  have heq : (medianOf less l x y z s).1 =
      (order2 less l (order2 less l x y s).1
        (order2 less l (order2 less l x y s).2.1 z (order2 less l x y s).2.2).1
        (order2 less l (order2 less l x y s).2.1 z (order2 less l x y s).2.2).2.2).2.1 := rfl
  rw [heq]
  rcases @order2_snd α _ less l (order2 less l x y s).1
      (order2 less l (order2 less l x y s).2.1 z (order2 less l x y s).2.2).1
      (order2 less l (order2 less l x y s).2.1 z (order2 less l x y s).2.2).2.2 with h | h
  · rw [h]
    rcases @order2_fst α _ less l x y s with h2 | h2
    · exact Or.inl h2
    · exact Or.inr (Or.inl h2)
  · rw [h]
    rcases @order2_fst α _ less l (order2 less l x y s).2.1 z
        (order2 less l x y s).2.2 with h2 | h2
    · rw [h2]
      rcases @order2_snd α _ less l x y s with h3 | h3
      · exact Or.inl h3
      · exact Or.inr (Or.inl h3)
    · exact Or.inr (Or.inr h2)

theorem medianAdjacent_mem {less : α → α → Bool} {l : List α} (x s : Nat) :
    (medianAdjacent less l x s).1 = x - 1 ∨ (medianAdjacent less l x s).1 = x ∨
    (medianAdjacent less l x s).1 = x + 1 :=
  medianOf_mem (x - 1) x (x + 1) s

/-- The median selection stays inside the window. -/
theorem choosePivotQ_mem {less : α → α → Bool} {l : List α} {a b : Nat}
    (h8 : 8 ≤ b - a) :
    a ≤ (choosePivotQ less l a b).1 ∧ (choosePivotQ less l a b).1 < b := by
  have heq : choosePivotQ less l a b =
      if 50 ≤ b - a then
        medianOf less l
          (medianAdjacent less l (a + (b - a) / 4 * 1) 0).1
          (medianAdjacent less l (a + (b - a) / 4 * 2)
            (medianAdjacent less l (a + (b - a) / 4 * 1) 0).2).1
          (medianAdjacent less l (a + (b - a) / 4 * 3)
            (medianAdjacent less l (a + (b - a) / 4 * 2)
              (medianAdjacent less l (a + (b - a) / 4 * 1) 0).2).2).1
          (medianAdjacent less l (a + (b - a) / 4 * 3)
            (medianAdjacent less l (a + (b - a) / 4 * 2)
              (medianAdjacent less l (a + (b - a) / 4 * 1) 0).2).2).2
      else medianOf less l (a + (b - a) / 4 * 1) (a + (b - a) / 4 * 2)
        (a + (b - a) / 4 * 3) 0 := rfl
  rw [heq]
  by_cases h50 : 50 ≤ b - a
  · rw [if_pos h50]
    rcases @medianAdjacent_mem α _ less l (a + (b - a) / 4 * 1) 0
      with hi | hi | hi <;>
    rcases @medianAdjacent_mem α _ less l (a + (b - a) / 4 * 2)
      (medianAdjacent less l (a + (b - a) / 4 * 1) 0).2 with hj | hj | hj <;>
    rcases @medianAdjacent_mem α _ less l (a + (b - a) / 4 * 3)
      (medianAdjacent less l (a + (b - a) / 4 * 2)
        (medianAdjacent less l (a + (b - a) / 4 * 1) 0).2).2 with hk | hk | hk <;>
    rcases @medianOf_mem α _ less l
      (medianAdjacent less l (a + (b - a) / 4 * 1) 0).1
      (medianAdjacent less l (a + (b - a) / 4 * 2)
        (medianAdjacent less l (a + (b - a) / 4 * 1) 0).2).1
      (medianAdjacent less l (a + (b - a) / 4 * 3)
        (medianAdjacent less l (a + (b - a) / 4 * 2)
          (medianAdjacent less l (a + (b - a) / 4 * 1) 0).2).2).1
      (medianAdjacent less l (a + (b - a) / 4 * 3)
        (medianAdjacent less l (a + (b - a) / 4 * 2)
          (medianAdjacent less l (a + (b - a) / 4 * 1) 0).2).2).2
      with hm | hm | hm <;>
    rw [hm] <;> omega
  · rw [if_neg h50]
    rcases @medianOf_mem α _ less l (a + (b - a) / 4 * 1)
      (a + (b - a) / 4 * 2) (a + (b - a) / 4 * 3) 0 with hm | hm | hm <;>
    rw [hm] <;> omega

/-- `choosePivot_func` returns a pivot index inside the window. -/
theorem choosePivotF_mem {less : α → α → Bool} {l : List α} {a b : Nat}
    (hab : a < b) :
    a ≤ (choosePivotF less l a b).1 ∧ (choosePivotF less l a b).1 < b := by
  have heq : choosePivotF less l a b =
      if 8 ≤ b - a then
        if (choosePivotQ less l a b).2 = 0 then
          ((choosePivotQ less l a b).1, SortHint.increasing)
        else if (choosePivotQ less l a b).2 = 12 then
          ((choosePivotQ less l a b).1, SortHint.decreasing)
        else ((choosePivotQ less l a b).1, SortHint.unknown)
      else (a + (b - a) / 4 * 2, SortHint.increasing) := rfl
  rw [heq]
  by_cases h8 : 8 ≤ b - a
  · rw [if_pos h8]
    have hm := @choosePivotQ_mem α _ less l a b h8
    by_cases h0 : (choosePivotQ less l a b).2 = 0
    · rw [if_pos h0]; exact hm
    · rw [if_neg h0]
      by_cases h12 : (choosePivotQ less l a b).2 = 12
      · rw [if_pos h12]; exact hm
      · rw [if_neg h12]; exact hm
  · rw [if_neg h8]
    exact ⟨by omega, by omega⟩

theorem sdChild_range {key : α → β} {f n root : Nat} {l : List α} :
    2 * root + 1 ≤ sdChild (lessK key) f n root l ∧
    sdChild (lessK key) f n root l ≤ 2 * root + 2 := by
  unfold sdChild
  by_cases hc : 2 * root + 1 + 1 < n ∧
      lessK key (getE l (f + (2 * root + 1))) (getE l (f + (2 * root + 1) + 1)) = true
  · rw [if_pos hc]; omega
  · rw [if_neg hc]; omega

theorem sdChild_lt {key : α → β} {f n root : Nat} {l : List α}
    (h : 2 * root + 1 < n) : sdChild (lessK key) f n root l < n := by
  unfold sdChild
  by_cases hc : 2 * root + 1 + 1 < n ∧
      lessK key (getE l (f + (2 * root + 1))) (getE l (f + (2 * root + 1) + 1)) = true
  · rw [if_pos hc]; exact hc.1
  · rw [if_neg hc]; exact h

/-- The chosen child's key dominates both children. -/
theorem sdChild_max {key : α → β} {f n root : Nat} {l : List α} :
    ∀ c, c < n → (c = 2 * root + 1 ∨ c = 2 * root + 2) →
    key (getE l (f + c)) ≤ key (getE l (f + sdChild (lessK key) f n root l)) := by
  intro c hcn hrel
  unfold sdChild
  by_cases hc : 2 * root + 1 + 1 < n ∧
      lessK key (getE l (f + (2 * root + 1))) (getE l (f + (2 * root + 1) + 1)) = true
  · rw [if_pos hc]
    rcases hrel with rfl | rfl
    · exact le_of_lt (lessK_eq_true.mp hc.2)
    · have h2 : 2 * root + 2 = 2 * root + 1 + 1 := by omega
      rw [h2]
  · rw [if_neg hc]
    rcases hrel with rfl | rfl
    · exact le_refl _
    · have h2 : 2 * root + 2 = 2 * root + 1 + 1 := by omega
      cases hcase : lessK key (getE l (f + (2 * root + 1))) (getE l (f + (2 * root + 1) + 1))
      · rw [h2]
        exact lessK_eq_false.mp hcase
      · exact absurd ⟨by omega, hcase⟩ hc

/-- `siftDown_func` at `root`: if every parent-child pair at or above the
threshold `t` holds except at `root`, and `root`'s children stay below
`root`'s parent, sifting restores all pairs at or above `t` and permutes
only the window. -/
theorem siftDownF_spec {key : α → β} {f n t : Nat} :
    ∀ (fuel root : Nat) (l : List α), n - root ≤ fuel → f + n ≤ l.length →
    (∀ r c, c < n → (c = 2 * r + 1 ∨ c = 2 * r + 2) → t ≤ r → r ≠ root →
      key (getE l (f + c)) ≤ key (getE l (f + r))) →
    (∀ p, (root = 2 * p + 1 ∨ root = 2 * p + 2) → t ≤ p →
      ∀ c, c < n → (c = 2 * root + 1 ∨ c = 2 * root + 2) →
      key (getE l (f + c)) ≤ key (getE l (f + p))) →
    (∀ r c, c < n → (c = 2 * r + 1 ∨ c = 2 * r + 2) → t ≤ r →
      key (getE (siftDownF (lessK key) f n fuel root l) (f + c)) ≤
        key (getE (siftDownF (lessK key) f n fuel root l) (f + r))) ∧
    permWithin l (siftDownF (lessK key) f n fuel root l) f (f + n) := by
  intro fuel
  induction fuel with
  | zero =>
    intro root l hfuel hbl hinv1 hinv2
    have heq0 : siftDownF (lessK key) f n 0 root l = l := rfl
    rw [heq0]
    refine ⟨?_, permWithin_refl l f (f + n)⟩
    intro r c hcn hrel htr
    by_cases hr : r = root
    · exact absurd hcn (by omega)
    · exact hinv1 r c hcn hrel htr hr
  | succ fuel ih =>
    intro root l hfuel hbl hinv1 hinv2
    have heq : siftDownF (lessK key) f n (fuel + 1) root l =
        if 2 * root + 1 < n then
          if lessK key (getE l (f + root)) (getE l (f + sdChild (lessK key) f n root l)) then
            siftDownF (lessK key) f n fuel (sdChild (lessK key) f n root l)
              (lswap l (f + root) (f + sdChild (lessK key) f n root l))
          else l
        else l := rfl
    rw [heq]
    by_cases hc0 : 2 * root + 1 < n
    · rw [if_pos hc0]
      have hch1 := @sdChild_range α _ β _ key f n root l
      have hch2 := @sdChild_lt α _ β _ key f n root l hc0
      by_cases hswap : lessK key (getE l (f + root))
          (getE l (f + sdChild (lessK key) f n root l)) = true
      · rw [if_pos hswap]
        have hlt : key (getE l (f + root)) <
            key (getE l (f + sdChild (lessK key) f n root l)) := lessK_eq_true.mp hswap
        have hrl : f + root < l.length := by omega
        have hchl : f + sdChild (lessK key) f n root l < l.length := by omega
        set ch := sdChild (lessK key) f n root l with hchdef
        set m := lswap l (f + root) (f + ch) with hm
        have hmr : getE m (f + root) = getE l (f + ch) := getE_lswap_snd hrl hchl
        have hmc : getE m (f + ch) = getE l (f + root) := getE_lswap_fst hrl hchl
        have hmo : ∀ k, k ≠ f + root → k ≠ f + ch → getE m k = getE l k :=
          fun k h1 h2 => getE_lswap_other h1 h2
        have hinvA : ∀ r c, c < n → (c = 2 * r + 1 ∨ c = 2 * r + 2) → t ≤ r → r ≠ ch →
            key (getE m (f + c)) ≤ key (getE m (f + r)) := by
          intro r c hcn hrel htr hrch
          by_cases hrroot : r = root
          · -- children of the old root
            rw [hrroot]
            rw [hmr]
            by_cases hcch : c = ch
            · rw [hcch, hmc]
              exact le_of_lt hlt
            · rw [hmo (f + c) (by omega) (by
                intro hcon
                exact hcch (by omega))]
              exact sdChild_max c hcn (by rw [hrroot] at hrel; exact hrel)
          · by_cases hcroot : c = root
            · -- the old root as a child: its parent is `r`
              rw [hcroot, hmr, hmo (f + r) (by omega) (by
                  intro hcon
                  have : r = ch := by omega
                  exact hrch this)]
              exact hinv2 r (by rw [← hcroot]; exact hrel) htr ch hch2 (by omega)
            · by_cases hcch : c = ch
              · -- `ch`'s parent is `root`, excluded
                exfalso
                have : r = root := by omega
                exact hrroot this
              · rw [hmo (f + c) (by intro hcon; exact hcroot (by omega))
                    (by intro hcon; exact hcch (by omega)),
                    hmo (f + r) (by intro hcon; exact hrroot (by omega))
                    (by intro hcon; exact hrch (by omega))]
                exact hinv1 r c hcn hrel htr hrroot
        have hinvB : ∀ p, (ch = 2 * p + 1 ∨ ch = 2 * p + 2) → t ≤ p →
            ∀ c, c < n → (c = 2 * ch + 1 ∨ c = 2 * ch + 2) →
            key (getE m (f + c)) ≤ key (getE m (f + p)) := by
          intro p hprel htp c hcn hcrel
          have hproot : p = root := by omega
          rw [hproot, hmr]
          have hcne1 : f + c ≠ f + root := by omega
          have hcne2 : f + c ≠ f + ch := by omega
          rw [hmo (f + c) hcne1 hcne2]
          exact hinv1 ch c hcn (by omega) (by omega) (by omega)
        have hrec := ih ch m (by omega) (by rw [hm, length_lswap]; exact hbl) hinvA hinvB
        refine ⟨hrec.1, ?_⟩
        have hswapperm : permWithin l m f (f + n) :=
          lswap_permWithin hrl hchl (by omega) (by omega) (by omega) (by omega)
        exact permWithin_trans hswapperm hrec.2
      · rw [if_neg hswap]
        refine ⟨?_, permWithin_refl l f (f + n)⟩
        intro r c hcn hrel htr
        by_cases hr : r = root
        · rw [hr]
          have hle : key (getE l (f + sdChild (lessK key) f n root l)) ≤
              key (getE l (f + root)) := by
            cases hcase : lessK key (getE l (f + root))
                (getE l (f + sdChild (lessK key) f n root l))
            · exact lessK_eq_false.mp hcase
            · exact absurd hcase hswap
          exact (sdChild_max c hcn (by rw [hr] at hrel; exact hrel)).trans hle
        · exact hinv1 r c hcn hrel htr hr
    · rw [if_neg hc0]
      refine ⟨?_, permWithin_refl l f (f + n)⟩
      intro r c hcn hrel htr
      by_cases hr : r = root
      · omega
      · exact hinv1 r c hcn hrel htr hr

/-- The heap-construction loop: once all parent-child pairs with parent at
or above `fuel` hold, processing roots `fuel-1, …, 0` yields a full heap. -/
theorem heapifyLoop_spec {key : α → β} {f n : Nat} :
    ∀ (fuel : Nat) (l : List α), f + n ≤ l.length →
    (∀ r c, c < n → (c = 2 * r + 1 ∨ c = 2 * r + 2) → fuel ≤ r →
      key (getE l (f + c)) ≤ key (getE l (f + r))) →
    (∀ r c, c < n → (c = 2 * r + 1 ∨ c = 2 * r + 2) →
      key (getE (heapifyLoop (lessK key) f n fuel l) (f + c)) ≤
        key (getE (heapifyLoop (lessK key) f n fuel l) (f + r))) ∧
    permWithin l (heapifyLoop (lessK key) f n fuel l) f (f + n) := by
  intro fuel
  induction fuel with
  | zero =>
    intro l hbl hup
    have heq0 : heapifyLoop (lessK key) f n 0 l = l := rfl
    rw [heq0]
    exact ⟨fun r c h1 h2 => hup r c h1 h2 (Nat.zero_le r), permWithin_refl l f (f + n)⟩
  | succ fuel ih =>
    intro l hbl hup
    have heq : heapifyLoop (lessK key) f n (fuel + 1) l =
        heapifyLoop (lessK key) f n fuel (siftDownF (lessK key) f n n fuel l) := rfl
    rw [heq]
    have hsd := @siftDownF_spec α _ β _ key f n fuel n fuel l (by omega) hbl
      (fun r c h1 h2 h3 h4 => hup r c h1 h2 (by omega))
      (fun p hp h3 => absurd hp (by omega))
    have hrec := ih (siftDownF (lessK key) f n n fuel l)
      (by rw [hsd.2.1]; exact hbl) (fun r c h1 h2 h3 => hsd.1 r c h1 h2 h3)
    exact ⟨hrec.1, permWithin_trans hsd.2 hrec.2⟩

/-- In a heap the root key dominates the whole window. -/
theorem heapRootMax {key : α → β} {f n : Nat} {l : List α}
    (hheap : ∀ r c, c < n → (c = 2 * r + 1 ∨ c = 2 * r + 2) →
      key (getE l (f + c)) ≤ key (getE l (f + r))) :
    ∀ p, p < n → key (getE l (f + p)) ≤ key (getE l f) := by
  intro p
  induction p using Nat.strong_induction_on with
  | _ p ih =>
    intro hp
    rcases Nat.eq_zero_or_pos p with rfl | hpos
    · exact le_refl _
    · have hpar : p = 2 * ((p - 1) / 2) + 1 ∨ p = 2 * ((p - 1) / 2) + 2 := by omega
      have hstep := hheap ((p - 1) / 2) p hp hpar
      exact hstep.trans (ih ((p - 1) / 2) (by omega) (by omega))

/-- The pop loop of `heapSort_func`: with a heap on `[f, f+fuel)`, a sorted
suffix `[f+fuel, f+n0)` and the prefix bounded by the suffix, popping sorts
the whole window, permuting only the prefix. -/
theorem popLoop_spec {key : α → β} {f n0 : Nat} :
    ∀ (fuel : Nat) (l : List α), fuel ≤ n0 → f + n0 ≤ l.length →
    (∀ r c, c < fuel → (c = 2 * r + 1 ∨ c = 2 * r + 2) →
      key (getE l (f + c)) ≤ key (getE l (f + r))) →
    sortedRange key l (f + fuel) (f + n0) →
    (∀ p q, p < fuel → fuel ≤ q → q < n0 →
      key (getE l (f + p)) ≤ key (getE l (f + q))) →
    sortedRange key (popLoop (lessK key) f fuel l) f (f + n0) ∧
    permWithin l (popLoop (lessK key) f fuel l) f (f + fuel) := by
  intro fuel
  induction fuel with
  | zero =>
    intro l hn hbl H1 H2 H3
    have heq0 : popLoop (lessK key) f 0 l = l := rfl
    rw [heq0]
    exact ⟨sortedRange_mono (by omega) (le_refl _) H2, permWithin_refl l f (f + 0)⟩
  | succ fuel ih =>
    intro l hn hbl H1 H2 H3
    have heq : popLoop (lessK key) f (fuel + 1) l =
        popLoop (lessK key) f fuel
          (siftDownF (lessK key) f fuel fuel 0 (lswap l f (f + fuel))) := rfl
    rw [heq]
    have hfl : f < l.length := by omega
    have hffl : f + fuel < l.length := by omega
    set m1 := lswap l f (f + fuel) with hm1def
    set m2 := siftDownF (lessK key) f fuel fuel 0 m1 with hm2def
    have hm1r : getE m1 f = getE l (f + fuel) := getE_lswap_snd hfl hffl
    have hm1f : getE m1 (f + fuel) = getE l f := getE_lswap_fst hfl hffl
    have hm1o : ∀ k, k ≠ f → k ≠ f + fuel → getE m1 k = getE l k :=
      fun k h1 h2 => getE_lswap_other h1 h2
    have hroot := @heapRootMax α _ β _ key f (fuel + 1) l H1
    have hsd : (∀ r c, c < fuel → (c = 2 * r + 1 ∨ c = 2 * r + 2) → 0 ≤ r →
        key (getE m2 (f + c)) ≤ key (getE m2 (f + r))) ∧
        permWithin m1 m2 f (f + fuel) :=
      @siftDownF_spec α _ β _ key f fuel 0 fuel 0 m1 (by omega)
        (by rw [hm1def, length_lswap]; omega)
        (by
          intro r c h1 h2 h3 h4
          rw [hm1o (f + c) (by omega) (by omega), hm1o (f + r) (by omega) (by omega)]
          exact H1 r c (by omega) h2)
        (fun p hp _ => absurd hp (by omega))
    have H2m1 : sortedRange key m1 (f + fuel) (f + n0) := by
      intro i j h1 h2 h3
      by_cases hif : i = f + fuel
      · by_cases hjf : j = f + fuel
        · rw [hif, hjf]
        · rw [hif, hm1f, hm1o j (by omega) (by omega)]
          have h4 := H3 0 (j - f) (by omega) (by omega) (by omega)
          rw [show f + (j - f) = j by omega] at h4
          exact h4
      · rw [hm1o i (by omega) (by omega), hm1o j (by omega) (by omega)]
        exact H2 i j (by omega) h2 h3
    have H2pp : sortedRange key m2 (f + fuel) (f + n0) := by
      intro i j h1 h2 h3
      rw [hsd.2.2.1 i (Or.inr (by omega)), hsd.2.2.1 j (Or.inr (by omega))]
      exact H2m1 i j h1 h2 h3
    have H3pp : ∀ p q, p < fuel → fuel ≤ q → q < n0 →
        key (getE m2 (f + p)) ≤ key (getE m2 (f + q)) := by
      intro p q hp hq hqn
      have H3m1 : ∀ k, f ≤ k → k < f + fuel →
          key (getE m1 k) ≤ key (getE m1 (f + q)) := by
        intro k hk1 hk2
        by_cases hkf : k = f
        · rw [hkf, hm1r]
          by_cases hqf : q = fuel
          · rw [hqf, hm1f]
            exact hroot fuel (by omega)
          · rw [hm1o (f + q) (by omega) (by omega)]
            exact H3 fuel q (by omega) (by omega) hqn
        · rw [hm1o k (by omega) (by omega)]
          by_cases hqf : q = fuel
          · rw [hqf, hm1f]
            have h5 := hroot (k - f) (by omega)
            rw [show f + (k - f) = k by omega] at h5
            exact h5
          · rw [hm1o (f + q) (by omega) (by omega)]
            have h4 := H3 (k - f) q (by omega) (by omega) hqn
            rw [show f + (k - f) = k by omega] at h4
            exact h4
      have htr := forall_getE_of_permWithin hsd.2
        (fun x => key x ≤ key (getE m1 (f + q))) H3m1
      have h6 := htr (f + p) (by omega) (by omega)
      rw [← hsd.2.2.1 (f + q) (Or.inr (by omega))] at h6
      exact h6
    have hrec := ih m2 (by omega)
      (by rw [hsd.2.1, hm1def, length_lswap]; exact hbl)
      (fun r c h1 h2 => hsd.1 r c h1 h2 (Nat.zero_le r)) H2pp H3pp
    refine ⟨hrec.1, ?_⟩
    have hw1 : permWithin l m1 f (f + (fuel + 1)) :=
      lswap_permWithin hfl hffl (le_refl f) (by omega) (by omega) (by omega)
    have hw2 : permWithin m1 m2 f (f + (fuel + 1)) :=
      permWithin_mono (le_refl f) (by omega) (by omega) hsd.2
    have hw3 : permWithin m2 (popLoop (lessK key) f fuel m2) f (f + (fuel + 1)) :=
      permWithin_mono (le_refl f) (by omega) (by omega) hrec.2
    exact permWithin_trans hw1 (permWithin_trans hw2 hw3)

/-- `heapSort_func` sorts its window and permutes only the window. -/
theorem heapSortF_spec {key : α → β} {l : List α} {a b : Nat}
    (hab : a ≤ b) (hbl : b ≤ l.length) :
    sortedRange key (heapSortF (lessK key) l a b) a b ∧
    permWithin l (heapSortF (lessK key) l a b) a b := by
  have heq : heapSortF (lessK key) l a b =
      popLoop (lessK key) a (b - a)
        (heapifyLoop (lessK key) a (b - a) ((b - a - 1) / 2 + 1) l) := rfl
  rw [heq]
  have hhl := @heapifyLoop_spec α _ β _ key a (b - a) ((b - a - 1) / 2 + 1) l
    (by omega) (fun r c h1 h2 h3 => absurd h1 (by omega))
  have hpl := @popLoop_spec α _ β _ key a (b - a) (b - a)
    (heapifyLoop (lessK key) a (b - a) ((b - a - 1) / 2 + 1) l)
    (le_refl _) (by rw [hhl.2.1]; omega)
    (fun r c h1 h2 => hhl.1 r c (by omega) h2)
    (sortedRange_of_small (Nat.le_succ _))
    (fun p q h1 h2 h3 => absurd h3 (by omega))
  refine ⟨?_, ?_⟩
  · have hs := hpl.1
    rw [show a + (b - a) = b by omega] at hs
    exact hs
  · have hp := permWithin_trans hhl.2 hpl.2
    have hp2 := permWithin_mono (le_refl a) (le_refl (a + (b - a))) (by omega) hp
    rw [show a + (b - a) = b by omega] at hp2
    exact hp2

/-- A sorted left half below a pivot value, the pivot at `mid`, and a
sorted right half above it glue to a sorted window. -/
theorem glue_sorted {key : α → β} {l : List α} {a mid b : Nat} {pv : β}
    (hL : sortedRange key l a mid) (hR : sortedRange key l (mid + 1) b)
    (hlow : ∀ p, a ≤ p → p < mid → key (getE l p) ≤ pv)
    (hmid : key (getE l mid) = pv)
    (hhigh : ∀ q, mid < q → q < b → pv ≤ key (getE l q)) :
    sortedRange key l a b := by
  intro i j hi hij hj
  rcases Nat.lt_trichotomy j mid with hjm | hjm | hjm
  · exact hL i j hi hij hjm
  · rcases Nat.eq_or_lt_of_le hij with rfl | hlt
    · exact le_refl _
    · rw [hjm, hmid]
      exact hlow i hi (by omega)
  · rcases Nat.lt_trichotomy i mid with him | him | him
    · exact (hlow i hi him).trans (hhigh j hjm hj)
    · rw [him, hmid]
      exact hhigh j hjm hj
    · exact hR i j (by omega) hij hj

/-- A prefix of constant key at or below a sorted suffix glues to a sorted
window. -/
theorem glue_sorted2 {key : α → β} {l : List α} {a mid b : Nat} {pv : β}
    (hR : sortedRange key l mid b)
    (hlow : ∀ p, a ≤ p → p < mid → key (getE l p) = pv)
    (hhigh : ∀ q, mid ≤ q → q < b → pv ≤ key (getE l q)) :
    sortedRange key l a b := by
  intro i j hi hij hj
  rcases Nat.lt_or_ge j mid with hjm | hjm
  · rw [hlow i hi (by omega), hlow j (by omega) hjm]
  · rcases Nat.lt_or_ge i mid with him | him
    · rw [hlow i hi him]
      exact hhigh j hjm hj
    · exact hR i j (by omega) hij hj

theorem fenced_mono {key : α → β} {l : List α} {a b c : Nat} (h : c ≤ b)
    (hfen : fenced key l a b) : fenced key l a c :=
  fun ha q h1 h2 => hfen ha q h1 (by omega)

theorem pdqL1_perm {less : α → α → Bool} {l : List α} {a b : Nat} {wb : Bool}
    (hbl : b ≤ l.length) : permWithin l (pdqL1 less l a b wb) a b := by
  unfold pdqL1
  by_cases hw : ¬wb = true
  · rw [if_pos hw]
    exact breakPatternsF_spec hbl
  · rw [if_neg hw]
    exact permWithin_refl l a b

theorem pdqL2_perm {less : α → α → Bool} {l : List α} {a b : Nat} {wb : Bool}
    (hab : a < b) (hbl : b ≤ l.length) : permWithin l (pdqL2 less l a b wb) a b := by
  have h1 : permWithin l (pdqL1 less l a b wb) a b := pdqL1_perm hbl
  unfold pdqL2
  by_cases hd : (choosePivotF less (pdqL1 less l a b wb) a b).2 = SortHint.decreasing
  · rw [if_pos hd]
    exact permWithin_trans h1 (reverseRangeF_spec hab (by rw [h1.1]; exact hbl))
  · rw [if_neg hd]
    exact h1

theorem pdqPivot_mem {less : α → α → Bool} {l : List α} {a b : Nat} {wb : Bool}
    (hab : a < b) :
    a ≤ pdqPivot less l a b wb ∧ pdqPivot less l a b wb < b := by
  have hm := @choosePivotF_mem α _ less (pdqL1 less l a b wb) a b hab
  unfold pdqPivot
  by_cases hd : (choosePivotF less (pdqL1 less l a b wb) a b).2 = SortHint.decreasing
  · rw [if_pos hd]
    omega
  · rw [if_neg hd]
    exact hm

/-- The optional `partialInsertionSort_func` attempt: a `true` flag means
the window is sorted; either way only the window is permuted. -/
theorem pdqTryP_spec {key : α → β} {l : List α} {a b : Nat} {wb wp : Bool}
    (hab : a < b) (hbl : b ≤ l.length) (hfen : fenced key l a b) :
    ((pdqTryP (lessK key) l a b wb wp).1 = true →
      sortedRange key (pdqTryP (lessK key) l a b wb wp).2 a b) ∧
    permWithin l (pdqTryP (lessK key) l a b wb wp).2 a b := by
  have hl2 : permWithin l (pdqL2 (lessK key) l a b wb) a b := pdqL2_perm hab hbl
  unfold pdqTryP
  by_cases hc : wb = true ∧ wp = true ∧ pdqHint (lessK key) l a b wb = SortHint.increasing
  · rw [if_pos hc]
    have hspec := @pdqTryInsSort_spec α _ β _ key a b (pdqL2 (lessK key) l a b wb)
      hab (by rw [hl2.1]; exact hbl) (fenced_of_permWithin hl2 hfen)
    exact ⟨hspec.1, permWithin_trans hl2 hspec.2⟩
  · rw [if_neg hc]
    exact ⟨fun h => absurd h Bool.false_ne_true, hl2⟩

/-- In the `partitionEqual` branch the pivot equals the fence element, so
the left part is key-constant: sorting the right part sorts the window. -/
theorem pdqPartEq_glue {key : α → β} {l3 : List α} {a b piv : Nat}
    (hab : a < b) (hbl : b ≤ l3.length) (hp1 : a ≤ piv) (hp2 : piv < b)
    (hfen : fenced key l3 a b) (h0a : 0 < a)
    (hnl : ¬lessK key (getE l3 (a - 1)) (getE l3 piv) = true)
    {res : List α}
    (hres1 : sortedRange key res (partitionEqualF (lessK key) l3 a b piv).1 b)
    (hres2 : permWithin (partitionEqualF (lessK key) l3 a b piv).2 res
      (partitionEqualF (lessK key) l3 a b piv).1 b) :
    sortedRange key res a b ∧ permWithin l3 res a b := by
  obtain ⟨hperm, hm1, hm2, hlow, hhigh⟩ :=
    @partitionEqualF_spec α _ β _ key l3 a b piv hab hbl hp1 hp2
  have hub : key (getE l3 piv) ≤ key (getE l3 (a - 1)) := by
    cases hcase : lessK key (getE l3 (a - 1)) (getE l3 piv)
    · exact lessK_eq_false.mp hcase
    · exact absurd hcase hnl
  have hge : ∀ k, a ≤ k → k < b →
      key (getE l3 (a - 1)) ≤ key (getE (partitionEqualF (lessK key) l3 a b piv).2 k) :=
    forall_getE_of_permWithin hperm (fun x => key (getE l3 (a - 1)) ≤ key x)
      (fun k h1 h2 => hfen h0a k h1 h2)
  have hconst : ∀ p, a ≤ p → p < (partitionEqualF (lessK key) l3 a b piv).1 →
      key (getE (partitionEqualF (lessK key) l3 a b piv).2 p) = key (getE l3 piv) :=
    fun p h1 h2 => le_antisymm (hlow p h1 h2) (hub.trans (hge p h1 (by omega)))
  refine ⟨?_, ?_⟩
  · refine @glue_sorted2 α _ β _ key res a
      (partitionEqualF (lessK key) l3 a b piv).1 b (key (getE l3 piv)) hres1 ?_ ?_
    · intro p h1 h2
      rw [hres2.2.1 p (Or.inl h2)]
      exact hconst p h1 h2
    · exact forall_getE_of_permWithin hres2 (fun x => key (getE l3 piv) ≤ key x)
        (fun q h1 h2 => le_of_lt (hhigh q h1 h2))
  · exact permWithin_trans hperm
      (permWithin_mono (by omega) (le_refl b) (by omega) hres2)

/-- The fence of the `partitionEqual` continuation window. -/
theorem pdqPartEq_fence {key : α → β} {l3 : List α} {a b piv : Nat}
    (hab : a < b) (hbl : b ≤ l3.length) (hp1 : a ≤ piv) (hp2 : piv < b)
    (hfen : fenced key l3 a b) (h0a : 0 < a)
    (hnl : ¬lessK key (getE l3 (a - 1)) (getE l3 piv) = true) :
    fenced key (partitionEqualF (lessK key) l3 a b piv).2
      (partitionEqualF (lessK key) l3 a b piv).1 b := by
  obtain ⟨hperm, hm1, hm2, hlow, hhigh⟩ :=
    @partitionEqualF_spec α _ β _ key l3 a b piv hab hbl hp1 hp2
  intro h0 q h1 h2
  have hub : key (getE l3 piv) ≤ key (getE l3 (a - 1)) := by
    cases hcase : lessK key (getE l3 (a - 1)) (getE l3 piv)
    · exact lessK_eq_false.mp hcase
    · exact absurd hcase hnl
  have hge : ∀ k, a ≤ k → k < b →
      key (getE l3 (a - 1)) ≤ key (getE (partitionEqualF (lessK key) l3 a b piv).2 k) :=
    forall_getE_of_permWithin hperm (fun x => key (getE l3 (a - 1)) ≤ key x)
      (fun k h1 h2 => hfen h0a k h1 h2)
  have hconst : key (getE (partitionEqualF (lessK key) l3 a b piv).2
      ((partitionEqualF (lessK key) l3 a b piv).1 - 1)) = key (getE l3 piv) :=
    le_antisymm (hlow _ (by omega) (by omega))
      (hub.trans (hge _ (by omega) (by omega)))
  rw [hconst]
  exact le_of_lt (hhigh q h1 h2)

/-- The fence of the right half after `partition_func`. -/
theorem pdqPart_fenceHigh {key : α → β} {l3 : List α} {a b piv : Nat}
    (hab : a < b) (hbl : b ≤ l3.length) (hp1 : a ≤ piv) (hp2 : piv < b) :
    fenced key (partitionF (lessK key) l3 a b piv).2.2
      ((partitionF (lessK key) l3 a b piv).1 + 1) b := by
  obtain ⟨hperm, hm1, hm2, hpivval, hlow, hhigh⟩ :=
    @partitionF_spec α _ β _ key l3 a b piv hab hbl hp1 hp2
  intro h0 q h1 h2
  have he : (partitionF (lessK key) l3 a b piv).1 + 1 - 1 =
      (partitionF (lessK key) l3 a b piv).1 := rfl
  rw [he, hpivval]
  exact hhigh q (by omega) h2

/-- Gluing the left-recursion-first case of `pdqsort_func`. -/
theorem pdqPart_glueL {key : α → β} {l3 : List α} {a b piv : Nat}
    (hab : a < b) (hbl : b ≤ l3.length) (hp1 : a ≤ piv) (hp2 : piv < b)
    {inner res : List α}
    (hinner1 : sortedRange key inner a (partitionF (lessK key) l3 a b piv).1)
    (hinner2 : permWithin (partitionF (lessK key) l3 a b piv).2.2 inner a
      (partitionF (lessK key) l3 a b piv).1)
    (hres1 : sortedRange key res ((partitionF (lessK key) l3 a b piv).1 + 1) b)
    (hres2 : permWithin inner res ((partitionF (lessK key) l3 a b piv).1 + 1) b) :
    sortedRange key res a b ∧ permWithin l3 res a b := by
  obtain ⟨hperm, hm1, hm2, hpivval, hlow, hhigh⟩ :=
    @partitionF_spec α _ β _ key l3 a b piv hab hbl hp1 hp2
  have hresinner : ∀ k, k ≤ (partitionF (lessK key) l3 a b piv).1 →
      getE res k = getE inner k :=
    fun k hk => hres2.2.1 k (Or.inl (by omega))
  have hlowInner : ∀ k, a ≤ k → k < (partitionF (lessK key) l3 a b piv).1 →
      key (getE inner k) < key (getE l3 piv) :=
    forall_getE_of_permWithin hinner2 (fun x => key x < key (getE l3 piv)) hlow
  refine ⟨?_, ?_⟩
  · refine @glue_sorted α _ β _ key res a
      (partitionF (lessK key) l3 a b piv).1 b (key (getE l3 piv)) ?_ hres1 ?_ ?_ ?_
    · intro i j h1 h2 h3
      rw [hresinner i (by omega), hresinner j (by omega)]
      exact hinner1 i j h1 h2 h3
    · intro p h1 h2
      rw [hresinner p (by omega)]
      exact le_of_lt (hlowInner p h1 h2)
    · rw [hresinner _ (le_refl _),
        hinner2.2.1 _ (Or.inr (le_refl _)), hpivval]
    · exact forall_getE_of_permWithin hres2
        (fun x => key (getE l3 piv) ≤ key x)
        (fun q h1 h2 => by
          rw [hinner2.2.1 q (Or.inr (by omega))]
          exact hhigh q (by omega) h2)
  · have hw1 : permWithin l3 (partitionF (lessK key) l3 a b piv).2.2 a b := hperm
    have hw2 := permWithin_mono (le_refl a) (show
      (partitionF (lessK key) l3 a b piv).1 ≤ b by omega) (by omega) hinner2
    have hw3 := permWithin_mono (show a ≤ (partitionF (lessK key) l3 a b piv).1 + 1
      by omega) (le_refl b) (by omega) hres2
    exact permWithin_trans hw1 (permWithin_trans hw2 hw3)

/-- Gluing the right-recursion-first case of `pdqsort_func`. -/
theorem pdqPart_glueR {key : α → β} {l3 : List α} {a b piv : Nat}
    (hab : a < b) (hbl : b ≤ l3.length) (hp1 : a ≤ piv) (hp2 : piv < b)
    {inner res : List α}
    (hinner1 : sortedRange key inner ((partitionF (lessK key) l3 a b piv).1 + 1) b)
    (hinner2 : permWithin (partitionF (lessK key) l3 a b piv).2.2 inner
      ((partitionF (lessK key) l3 a b piv).1 + 1) b)
    (hres1 : sortedRange key res a (partitionF (lessK key) l3 a b piv).1)
    (hres2 : permWithin inner res a (partitionF (lessK key) l3 a b piv).1) :
    sortedRange key res a b ∧ permWithin l3 res a b := by
  obtain ⟨hperm, hm1, hm2, hpivval, hlow, hhigh⟩ :=
    @partitionF_spec α _ β _ key l3 a b piv hab hbl hp1 hp2
  have hresinner : ∀ k, (partitionF (lessK key) l3 a b piv).1 ≤ k →
      getE res k = getE inner k :=
    fun k hk => hres2.2.1 k (Or.inr hk)
  have hinnerbase : ∀ k, k ≤ (partitionF (lessK key) l3 a b piv).1 →
      getE inner k = getE (partitionF (lessK key) l3 a b piv).2.2 k :=
    fun k hk => hinner2.2.1 k (Or.inl (by omega))
  refine ⟨?_, ?_⟩
  · refine @glue_sorted α _ β _ key res a
      (partitionF (lessK key) l3 a b piv).1 b (key (getE l3 piv)) hres1 ?_ ?_ ?_ ?_
    · intro i j h1 h2 h3
      rw [hresinner i (by omega), hresinner j (by omega)]
      exact hinner1 i j h1 h2 h3
    · intro p h1 h2
      exact le_of_lt (forall_getE_of_permWithin hres2
        (fun x => key x < key (getE l3 piv))
        (fun k hk1 hk2 => by
          rw [hinnerbase k (by omega)]
          exact hlow k hk1 hk2) p h1 h2)
    · rw [hresinner _ (le_refl _), hinnerbase _ (le_refl _), hpivval]
    · intro q h1 h2
      rw [hresinner q (by omega)]
      have := forall_getE_of_permWithin hinner2
        (fun x => key (getE l3 piv) ≤ key x)
        (fun k hk1 hk2 => hhigh k (by omega) hk2) q (by omega) h2
      exact this
  · have hw2 := permWithin_mono (show a ≤ (partitionF (lessK key) l3 a b piv).1 + 1
      by omega) (le_refl b) (by omega) hinner2
    have hw3 := permWithin_mono (le_refl a) (show
      (partitionF (lessK key) l3 a b piv).1 ≤ b by omega) (by omega) hres2
    exact permWithin_trans hperm (permWithin_trans hw2 hw3)

/-- `pdqsort_func` sorts its window and permutes only the window, for any
fuel at least `b - a` (each loop iteration and recursion strictly shrinks
the window). -/
theorem pdqsortF_spec {key : α → β} :
    ∀ (fuel : Nat) (l : List α) (a b limit : Nat) (wb wp : Bool),
    b - a ≤ fuel → b ≤ l.length → fenced key l a b →
    sortedRange key (pdqsortF (lessK key) fuel l a b limit wb wp) a b ∧
    permWithin l (pdqsortF (lessK key) fuel l a b limit wb wp) a b := by
  intro fuel
  induction fuel with
  | zero =>
    intro l a b limit wb wp hfuel hbl hfen
    have heq0 : pdqsortF (lessK key) 0 l a b limit wb wp = l := rfl
    rw [heq0]
    exact ⟨sortedRange_of_small (by omega), permWithin_refl l a b⟩
  | succ fuel ih =>
    intro l a b limit wb wp hfuel hbl hfen
    have heq : pdqsortF (lessK key) (fuel + 1) l a b limit wb wp =
        if b - a ≤ 12 then insertionSortF (lessK key) l a b
        else if limit = 0 then heapSortF (lessK key) l a b
        else if (pdqTryP (lessK key) l a b wb wp).1 = true then
          (pdqTryP (lessK key) l a b wb wp).2
        else if 0 < a ∧ ¬lessK key (getE (pdqTryP (lessK key) l a b wb wp).2 (a - 1))
            (getE (pdqTryP (lessK key) l a b wb wp).2 (pdqPivot (lessK key) l a b wb)) =
              true then
          pdqsortF (lessK key) fuel
            (partitionEqualF (lessK key) (pdqTryP (lessK key) l a b wb wp).2 a b
              (pdqPivot (lessK key) l a b wb)).2
            (partitionEqualF (lessK key) (pdqTryP (lessK key) l a b wb wp).2 a b
              (pdqPivot (lessK key) l a b wb)).1 b
            (if ¬wb = true then limit - 1 else limit) wb wp
        else if (partitionF (lessK key) (pdqTryP (lessK key) l a b wb wp).2 a b
              (pdqPivot (lessK key) l a b wb)).1 - a <
            b - (partitionF (lessK key) (pdqTryP (lessK key) l a b wb wp).2 a b
              (pdqPivot (lessK key) l a b wb)).1 then
          pdqsortF (lessK key) fuel
            (pdqsortF (lessK key) fuel
              (partitionF (lessK key) (pdqTryP (lessK key) l a b wb wp).2 a b
                (pdqPivot (lessK key) l a b wb)).2.2 a
              (partitionF (lessK key) (pdqTryP (lessK key) l a b wb wp).2 a b
                (pdqPivot (lessK key) l a b wb)).1
              (if ¬wb = true then limit - 1 else limit) true true)
            ((partitionF (lessK key) (pdqTryP (lessK key) l a b wb wp).2 a b
              (pdqPivot (lessK key) l a b wb)).1 + 1) b
            (if ¬wb = true then limit - 1 else limit)
            (decide ((b - a) / 8 ≤ min
              ((partitionF (lessK key) (pdqTryP (lessK key) l a b wb wp).2 a b
                (pdqPivot (lessK key) l a b wb)).1 - a)
              (b - (partitionF (lessK key) (pdqTryP (lessK key) l a b wb wp).2 a b
                (pdqPivot (lessK key) l a b wb)).1)))
            (partitionF (lessK key) (pdqTryP (lessK key) l a b wb wp).2 a b
              (pdqPivot (lessK key) l a b wb)).2.1
        else
          pdqsortF (lessK key) fuel
            (pdqsortF (lessK key) fuel
              (partitionF (lessK key) (pdqTryP (lessK key) l a b wb wp).2 a b
                (pdqPivot (lessK key) l a b wb)).2.2
              ((partitionF (lessK key) (pdqTryP (lessK key) l a b wb wp).2 a b
                (pdqPivot (lessK key) l a b wb)).1 + 1) b
              (if ¬wb = true then limit - 1 else limit) true true)
            a
            (partitionF (lessK key) (pdqTryP (lessK key) l a b wb wp).2 a b
              (pdqPivot (lessK key) l a b wb)).1
            (if ¬wb = true then limit - 1 else limit)
            (decide ((b - a) / 8 ≤ min
              ((partitionF (lessK key) (pdqTryP (lessK key) l a b wb wp).2 a b
                (pdqPivot (lessK key) l a b wb)).1 - a)
              (b - (partitionF (lessK key) (pdqTryP (lessK key) l a b wb wp).2 a b
                (pdqPivot (lessK key) l a b wb)).1)))
            (partitionF (lessK key) (pdqTryP (lessK key) l a b wb wp).2 a b
              (pdqPivot (lessK key) l a b wb)).2.1 := rfl
    rw [heq]
    by_cases h12 : b - a ≤ 12
    · rw [if_pos h12]
      exact insertionSortF_spec hbl
    · rw [if_neg h12]
      by_cases hlim : limit = 0
      · rw [if_pos hlim]
        exact heapSortF_spec (by omega) hbl
      · rw [if_neg hlim]
        have hab : a < b := by omega
        have hTP := @pdqTryP_spec α _ β _ key l a b wb wp hab hbl hfen
        have hPV := @pdqPivot_mem α _ (lessK key) l a b wb hab
        set TP := pdqTryP (lessK key) l a b wb wp with hTPdef
        set PV := pdqPivot (lessK key) l a b wb with hPVdef
        set L2 := (if ¬wb = true then limit - 1 else limit) with hL2def
        by_cases hT : TP.1 = true
        · rw [if_pos hT]
          exact ⟨hTP.1 hT, hTP.2⟩
        · rw [if_neg hT]
          have hl3len : b ≤ TP.2.length := by
            rw [hTP.2.1]; exact hbl
          have hfen3 : fenced key TP.2 a b := fenced_of_permWithin hTP.2 hfen
          by_cases hEq : 0 < a ∧
              ¬lessK key (getE TP.2 (a - 1)) (getE TP.2 PV) = true
          · rw [if_pos hEq]
            obtain ⟨hperm, hm1, hm2, hlow, hhigh⟩ :=
              @partitionEqualF_spec α _ β _ key TP.2 a b PV hab hl3len hPV.1 hPV.2
            set RE := partitionEqualF (lessK key) TP.2 a b PV with hREdef
            have hrec := ih RE.2 RE.1 b L2 wb wp (by omega)
              (by rw [hperm.1]; exact hl3len)
              (pdqPartEq_fence hab hl3len hPV.1 hPV.2 hfen3 hEq.1 hEq.2)
            have hglue := pdqPartEq_glue hab hl3len hPV.1 hPV.2 hfen3 hEq.1 hEq.2
              hrec.1 hrec.2
            exact ⟨hglue.1, permWithin_trans hTP.2 hglue.2⟩
          · rw [if_neg hEq]
            obtain ⟨hperm, hm1, hm2, hpivval, hlow, hhigh⟩ :=
              @partitionF_spec α _ β _ key TP.2 a b PV hab hl3len hPV.1 hPV.2
            set R := partitionF (lessK key) TP.2 a b PV with hRdef
            by_cases hLR : R.1 - a < b - R.1
            · rw [if_pos hLR]
              have hinner := ih R.2.2 a R.1 L2 true true (by omega)
                (by rw [hperm.1]; omega)
                (fenced_mono (by omega) (fenced_of_permWithin hperm hfen3))
              have hofen : fenced key (pdqsortF (lessK key) fuel R.2.2 a R.1 L2 true true)
                  (R.1 + 1) b := by
                intro h0 q h1 h2
                rw [hinner.2.2.1 (R.1 + 1 - 1) (Or.inr (by omega)),
                    hinner.2.2.1 q (Or.inr (by omega))]
                exact pdqPart_fenceHigh hab hl3len hPV.1 hPV.2 h0 q h1 h2
              have houter := ih (pdqsortF (lessK key) fuel R.2.2 a R.1 L2 true true)
                (R.1 + 1) b L2 (decide ((b - a) / 8 ≤ min (R.1 - a) (b - R.1))) R.2.1
                (by omega) (by rw [hinner.2.1, hperm.1]; exact hl3len) hofen
              have hglue := pdqPart_glueL hab hl3len hPV.1 hPV.2
                hinner.1 hinner.2 houter.1 houter.2
              exact ⟨hglue.1, permWithin_trans hTP.2 hglue.2⟩
            · rw [if_neg hLR]
              have hinner := ih R.2.2 (R.1 + 1) b L2 true true (by omega)
                (by rw [hperm.1]; exact hl3len)
                (pdqPart_fenceHigh hab hl3len hPV.1 hPV.2)
              have hofen : fenced key
                  (pdqsortF (lessK key) fuel R.2.2 (R.1 + 1) b L2 true true) a R.1 := by
                intro h0 q h1 h2
                rw [hinner.2.2.1 (a - 1) (Or.inl (by omega)),
                    hinner.2.2.1 q (Or.inl (by omega))]
                exact fenced_mono (by omega) (fenced_of_permWithin hperm hfen3) h0 q h1 h2
              have houter := ih
                (pdqsortF (lessK key) fuel R.2.2 (R.1 + 1) b L2 true true) a R.1 L2
                (decide ((b - a) / 8 ≤ min (R.1 - a) (b - R.1))) R.2.1
                (by omega) (by rw [hinner.2.1, hperm.1]; omega) hofen
              have hglue := pdqPart_glueR hab hl3len hPV.1 hPV.2
                hinner.1 hinner.2 houter.1 houter.2
              exact ⟨hglue.1, permWithin_trans hTP.2 hglue.2⟩

/-- `sort.Slice` sorts the whole list by the key and permutes it. -/
theorem sortSlice_spec {key : α → β} (l : List α) :
    sortedRange key (sortSlice (lessK key) l) 0 l.length ∧
    permWithin l (sortSlice (lessK key) l) 0 l.length := by
  have heq : sortSlice (lessK key) l =
      pdqsortF (lessK key) (l.length + 1) l 0 l.length (bitsLen l.length) true true := rfl
  rw [heq]
  exact pdqsortF_spec (l.length + 1) l 0 l.length (bitsLen l.length) true true
    (by omega) (le_refl _) (fun h0 => absurd h0 (by omega))

theorem slice_full (l : List α) : slice l 0 l.length = l := by
  apply List.ext_getElem
  · simp [slice]
  · intro i h1 h2
    simp only [slice, List.getElem_map, List.getElem_range, Nat.zero_add]
    rw [getE_eq]
    simp [List.getElem?_eq_getElem h2]

/-- `sort.Slice` permutes the list. -/
theorem sortSlice_perm {key : α → β} (l : List α) :
    List.Perm (sortSlice (lessK key) l) l := by
  have h := (@sortSlice_spec α _ β _ key l).2
  have hp := h.2.2
  rw [slice_full l] at hp
  rw [← h.1] at hp
  rw [slice_full] at hp
  exact hp

end SortToolkit

/-! ## Aggregator facts -/

theorem evLess_eq : evLess = lessK evKey := rfl

theorem ipLess_eq : ipLess = lessK IPInfo.ip := by
  funext x y
  unfold ipLess lessK
  exact decide_eq_decide.mpr Iff.rfl

theorem mkIPInfo_ip (k : String) (g : List Ev) : (mkIPInfo k g).ip = k := rfl

theorem mkIPInfo_events (k : String) (g : List Ev) :
    (mkIPInfo k g).events = sortSlice evLess g := rfl

theorem mkIPInfo_first (k : String) (g : List Ev) :
    (mkIPInfo k g).firstTime =
      if 0 < (sortSlice evLess g).length then evKey (getE (sortSlice evLess g) 0)
      else 0 := rfl

theorem mkIPInfo_last (k : String) (g : List Ev) :
    (mkIPInfo k g).lastTime =
      if 0 < (sortSlice evLess g).length then
        evKey (getE (sortSlice evLess g) ((sortSlice evLess g).length - 1))
      else 0 := rfl

theorem mkIPInfo_login (k : String) (g : List Ev) :
    (mkIPInfo k g).hasLoginSuccess =
      (sortSlice evLess g).any
        (fun e => sprintField e "eventid" == "cowrie.login.success") := rfl

/-- Every model entry is `mkIPInfo` of one of the distinct keys. -/
theorem mem_buildModel {evts : List Ev} {info : IPInfo} (h : info ∈ buildModel evts) :
    ∃ k, k ∈ groupKeys evts ∧ info = mkIPInfo k (groupOf evts k) := by
  unfold buildModel at h
  rw [ipLess_eq] at h
  have hp := @sortSlice_perm IPInfo _ String _ IPInfo.ip
    ((groupKeys evts).map fun k => mkIPInfo k (groupOf evts k))
  have h2 : info ∈ (groupKeys evts).map fun k => mkIPInfo k (groupOf evts k) :=
    hp.mem_iff.mp h
  obtain ⟨k, hk, heq⟩ := List.mem_map.mp h2
  exact ⟨k, hk, heq.symm⟩

set_option maxRecDepth 10000 in
/-- Claim C1, counterexample to stability: in `evtsC1` the two events with
equal normalized timestamps are tagged `A` (file index 2) and `B` (file
index 5), yet the aggregated group's sorted events list puts `B` (index 9)
before `A` (index 10): `sort.Slice` (pdqsort) reorders equal-key events. -/
theorem claim_C1_cex :
    asString (lookupJ (getE evtsC1 2) "input") = "A" ∧
    asString (lookupJ (getE evtsC1 5) "input") = "B" ∧
    evKey (getE evtsC1 2) = evKey (getE evtsC1 5) ∧
    (buildModel evtsC1).length = 1 ∧
    asString (lookupJ (getE (getE (buildModel evtsC1) 0).events 9) "input") = "B" ∧
    asString (lookupJ (getE (getE (buildModel evtsC1) 0).events 10) "input") = "A" := by
  decide

/-- Claim C1 (amended): every group's events list is sorted non-decreasing
by normalized timestamp; the stability half of the original claim is false
(see the counterexample). -/
theorem claim_C1 (evts : List Ev) (info : IPInfo) (h : info ∈ buildModel evts) :
    ∀ i j, i ≤ j → j < info.events.length →
    evKey (getE info.events i) ≤ evKey (getE info.events j) := by
  obtain ⟨k, hk, rfl⟩ := mem_buildModel h
  intro i j h1 h2
  have he : (mkIPInfo k (groupOf evts k)).events =
      sortSlice (lessK evKey) (groupOf evts k) := by
    rw [mkIPInfo_events, evLess_eq]
  rw [he] at h2 ⊢
  have hs := (@sortSlice_spec Ev _ Int _ evKey (groupOf evts k)).1
  have hlen := (@sortSlice_spec Ev _ Int _ evKey (groupOf evts k)).2.1
  exact hs i j (Nat.zero_le i) h1 (by omega)

set_option maxRecDepth 10000 in
theorem claim_C1_witness :
    evKey (getE ((buildModel evtsC1).headI).events 0) ≤
      evKey (getE ((buildModel evtsC1).headI).events 12) :=
  claim_C1 evtsC1 (buildModel evtsC1).headI (by decide) 0 12 (by omega) (by decide)

/-- Claim C5: a group's `loginSucceeded` flag is true iff some event of the
group has `eventid` rendering exactly to `"cowrie.login.success"`. -/
theorem claim_C5 (evts : List Ev) (info : IPInfo) (h : info ∈ buildModel evts) :
    info.hasLoginSuccess = true ↔
    ∃ e ∈ info.events, sprintField e "eventid" = "cowrie.login.success" := by
  obtain ⟨k, hk, rfl⟩ := mem_buildModel h
  rw [mkIPInfo_login, mkIPInfo_events, List.any_eq_true]
  constructor
  · rintro ⟨e, he, hbeq⟩
    exact ⟨e, he, by simpa using hbeq⟩
  · rintro ⟨e, he, heq2⟩
    exact ⟨e, he, by simpa using heq2⟩

set_option maxRecDepth 10000 in
theorem claim_C5_witness :
    ((buildModel evtsC1).headI.hasLoginSuccess = true ↔
      ∃ e ∈ (buildModel evtsC1).headI.events,
        sprintField e "eventid" = "cowrie.login.success") :=
  claim_C5 evtsC1 (buildModel evtsC1).headI (by decide)

/-- Claim C10: in every aggregated summary, `firstSeen ≤ lastSeen` (both
are the sentinel 0 for an empty group, and first/last of the sorted list
otherwise). -/
theorem claim_C10 (evts : List Ev) (info : IPInfo) (h : info ∈ buildModel evts) :
    info.firstTime ≤ info.lastTime := by
  obtain ⟨k, hk, rfl⟩ := mem_buildModel h
  rw [mkIPInfo_first, mkIPInfo_last]
  have he : sortSlice evLess (groupOf evts k) =
      sortSlice (lessK evKey) (groupOf evts k) := by rw [evLess_eq]
  rw [he]
  by_cases hlen : 0 < (sortSlice (lessK evKey) (groupOf evts k)).length
  · rw [if_pos hlen, if_pos hlen]
    have hs := (@sortSlice_spec Ev _ Int _ evKey (groupOf evts k)).1
    have hlen2 := (@sortSlice_spec Ev _ Int _ evKey (groupOf evts k)).2.1
    exact hs 0 ((sortSlice (lessK evKey) (groupOf evts k)).length - 1)
      (Nat.zero_le _) (Nat.zero_le _) (by omega)
  · rw [if_neg hlen, if_neg hlen]

set_option maxRecDepth 10000 in
theorem claim_C10_witness :
    (buildModel evtsC1).headI.firstTime ≤ (buildModel evtsC1).headI.lastTime :=
  claim_C10 evtsC1 (buildModel evtsC1).headI (by decide)

/-! ## Partition of the decoded events into the model's groups (C4) -/

theorem groupKeys_go_nodup :
    ∀ (evts : List Ev) (acc : List String), acc.Nodup →
    (List.foldl (fun acc e => if addrKey e ∈ acc then acc else acc ++ [addrKey e])
      acc evts).Nodup := by
  intro evts
  induction evts with
  | nil => intro acc h; exact h
  | cons e evts ih =>
    intro acc h
    show (List.foldl _ (if addrKey e ∈ acc then acc else acc ++ [addrKey e]) evts).Nodup
    by_cases hc : addrKey e ∈ acc
    · rw [if_pos hc]
      exact ih acc h
    · rw [if_neg hc]
      refine ih _ ?_
      rw [List.nodup_append]
      refine ⟨h, List.nodup_singleton _, ?_⟩
      intro x hx hy
      rw [List.mem_singleton] at hy
      exact hc (hy ▸ hx)

theorem groupKeys_go_mem :
    ∀ (evts : List Ev) (acc : List String) (k : String),
    (k ∈ List.foldl (fun acc e => if addrKey e ∈ acc then acc else acc ++ [addrKey e])
      acc evts) ↔ k ∈ acc ∨ ∃ e ∈ evts, addrKey e = k := by
  intro evts
  induction evts with
  | nil =>
    intro acc k
    simp
  | cons e evts ih =>
    intro acc k
    have hstep : List.foldl (fun acc e => if addrKey e ∈ acc then acc else acc ++ [addrKey e])
        acc (e :: evts) =
        List.foldl (fun acc e => if addrKey e ∈ acc then acc else acc ++ [addrKey e])
        (if addrKey e ∈ acc then acc else acc ++ [addrKey e]) evts := rfl
    rw [hstep, ih]
    by_cases hc : addrKey e ∈ acc
    · rw [if_pos hc]
      constructor
      · rintro (h | ⟨e', he', hk⟩)
        · exact Or.inl h
        · exact Or.inr ⟨e', List.mem_cons_of_mem e he', hk⟩
      · rintro (h | ⟨e', he', hk⟩)
        · exact Or.inl h
        · rcases List.mem_cons.mp he' with rfl | he2
          · exact Or.inl (hk ▸ hc)
          · exact Or.inr ⟨e', he2, hk⟩
    · rw [if_neg hc]
      constructor
      · rintro (h | ⟨e', he', hk⟩)
        · rcases List.mem_append.mp h with h2 | h2
          · exact Or.inl h2
          · exact Or.inr ⟨e, List.mem_cons_self e evts, (List.mem_singleton.mp h2).symm⟩
        · exact Or.inr ⟨e', List.mem_cons_of_mem e he', hk⟩
      · rintro (h | ⟨e', he', hk⟩)
        · exact Or.inl (List.mem_append.mpr (Or.inl h))
        · rcases List.mem_cons.mp he' with rfl | he2
          · exact Or.inl (List.mem_append.mpr (Or.inr (List.mem_singleton.mpr hk.symm)))
          · exact Or.inr ⟨e', he2, hk⟩

theorem groupKeys_nodup (evts : List Ev) : (groupKeys evts).Nodup :=
  groupKeys_go_nodup evts [] List.nodup_nil

theorem mem_groupKeys {evts : List Ev} {k : String} :
    k ∈ groupKeys evts ↔ ∃ e ∈ evts, addrKey e = k := by
  unfold groupKeys
  rw [groupKeys_go_mem]
  simp

/-- Filtering out key `k` does not change the group of a different key. -/
theorem groupOf_filter_ne (evts : List Ev) (k k' : String) (hne : k' ≠ k) :
    groupOf (evts.filter fun e => !decide (addrKey e = k)) k' = groupOf evts k' := by
  unfold groupOf
  rw [List.filter_filter]
  apply List.filter_congr
  intro e _
  by_cases h : addrKey e = k'
  · have h2 : ¬addrKey e = k := fun hh => hne (h ▸ hh ▸ rfl)
    simp [h, h2, hne]
  · simp [h]

/-- Distinct covering keys partition the events: the concatenation of the
groups is a permutation of the original list. -/
theorem groups_partition :
    ∀ (keys : List String), keys.Nodup →
    ∀ (evts : List Ev), (∀ e ∈ evts, addrKey e ∈ keys) →
    List.Perm ((keys.map (groupOf evts)).flatten) evts := by
  intro keys
  induction keys with
  | nil =>
    intro _ evts hcov
    have hnil : evts = [] := by
      cases evts with
      | nil => rfl
      | cons e t => exact absurd (hcov e (List.mem_cons_self e t)) (List.not_mem_nil _)
    rw [hnil]
    exact List.Perm.refl _
  | cons k keys ih =>
    intro hnd evts hcov
    rw [List.map_cons, List.flatten_cons]
    have hsplit := List.filter_append_perm (fun e => decide (addrKey e = k)) evts
    have hcong : keys.map (groupOf evts) =
        keys.map (groupOf (evts.filter fun e => !decide (addrKey e = k))) := by
      apply List.map_congr_left
      intro k' hk'
      have hne : k' ≠ k := by
        intro heq2
        rw [List.nodup_cons] at hnd
        exact hnd.1 (heq2 ▸ hk')
      exact (groupOf_filter_ne evts k k' hne).symm
    have hcov' : ∀ e ∈ evts.filter fun e => !decide (addrKey e = k), addrKey e ∈ keys := by
      intro e he
      have h1 := List.mem_filter.mp he
      have h2 := hcov e h1.1
      rcases List.mem_cons.mp h2 with h3 | h3
      · exfalso
        have h4 := h1.2
        rw [h3] at h4
        simp at h4
      · exact h3
    have hrec := ih (List.nodup_cons.mp hnd).2 (evts.filter fun e => !decide (addrKey e = k))
      hcov'
    rw [hcong]
    refine List.Perm.trans (List.Perm.append_left _ hrec) ?_
    exact hsplit

/-- Pointwise permutations of the blocks give a permutation of the
concatenations. -/
theorem flatten_map_perm {γ : Type} (f g : γ → List Ev) :
    ∀ (ks : List γ), (∀ x ∈ ks, List.Perm (f x) (g x)) →
    List.Perm ((ks.map f).flatten) ((ks.map g).flatten) := by
  intro ks
  induction ks with
  | nil => intro _; exact List.Perm.refl _
  | cons x ks ih =>
    intro h
    rw [List.map_cons, List.map_cons, List.flatten_cons, List.flatten_cons]
    exact (h x (List.mem_cons_self x ks)).append
      (ih fun y hy => h y (List.mem_cons_of_mem x hy))

/-- The model's events lists concatenate to a permutation of the decoded
events. -/
theorem model_events_perm (evts : List Ev) :
    List.Perm (((buildModel evts).map IPInfo.events).flatten) evts := by
  have h1 : List.Perm ((buildModel evts).map IPInfo.events)
      (((groupKeys evts).map fun k => mkIPInfo k (groupOf evts k)).map IPInfo.events) := by
    apply List.Perm.map
    unfold buildModel
    rw [ipLess_eq]
    exact @sortSlice_perm IPInfo _ String _ IPInfo.ip _
  have h2 : ((groupKeys evts).map fun k => mkIPInfo k (groupOf evts k)).map IPInfo.events =
      (groupKeys evts).map fun k => sortSlice evLess (groupOf evts k) := by
    rw [List.map_map]
    apply List.map_congr_left
    intro k _
    rfl
  have h3 : List.Perm (((groupKeys evts).map fun k => sortSlice evLess (groupOf evts k)).flatten)
      (((groupKeys evts).map (groupOf evts)).flatten) := by
    apply flatten_map_perm
    intro k _
    rw [evLess_eq]
    exact @sortSlice_perm Ev _ Int _ evKey _
  have h4 := groups_partition (groupKeys evts) (groupKeys_nodup evts) evts
    (fun e he => mem_groupKeys.mpr ⟨e, he, rfl⟩)
  have h5 := h1.join
  rw [h2] at h5
  exact (h5.trans h3).trans h4

/-- Claim C4: the model partitions the decoded events — the concatenated
events lists are a permutation of the decoded events (no duplication, no
loss), every event sits in the summary of its own address key, and the
model's keys are pairwise distinct, so each event is in exactly one
summary. -/
theorem claim_C4 (evts : List Ev) :
    List.Perm (((buildModel evts).map IPInfo.events).flatten) evts ∧
    (∀ info ∈ buildModel evts, ∀ e ∈ info.events, addrKey e = info.ip) ∧
    ((buildModel evts).map IPInfo.ip).Nodup := by
  refine ⟨model_events_perm evts, ?_, ?_⟩
  · intro info hinfo e he
    obtain ⟨k, hk, rfl⟩ := mem_buildModel hinfo
    rw [mkIPInfo_events, evLess_eq] at he
    have he2 : e ∈ groupOf evts k :=
      ((@sortSlice_perm Ev _ Int _ evKey (groupOf evts k)).mem_iff).mp he
    have he3 := List.mem_filter.mp he2
    rw [mkIPInfo_ip]
    exact of_decide_eq_true he3.2
  · have h1 : List.Perm ((buildModel evts).map IPInfo.ip)
        (((groupKeys evts).map fun k => mkIPInfo k (groupOf evts k)).map IPInfo.ip) := by
      apply List.Perm.map
      unfold buildModel
      rw [ipLess_eq]
      exact @sortSlice_perm IPInfo _ String _ IPInfo.ip _
    have h2 : ((groupKeys evts).map fun k => mkIPInfo k (groupOf evts k)).map IPInfo.ip =
        groupKeys evts := by
      rw [List.map_map]
      have h3 : (IPInfo.ip ∘ fun k => mkIPInfo k (groupOf evts k)) = fun k => k := by
        funext k
        rfl
      rw [h3, List.map_id']
    refine h1.nodup_iff.mpr ?_
    rw [h2]
    exact groupKeys_nodup evts

/-! ## Ingestion error handling (C8) -/

end GoCowrie
